import Mathlib

/-!
# Preset catalog server (`src/app.mjs`): slugs, listing, lookup

A shallow embedding of the helpers and the two read routes of
`Seance2/ExampleRESTEndpoint/src/app.mjs`.

* A JavaScript string is the list of its UTF-16 code units (`JSString`); the
  regular expressions of `slugify` carry no `u` flag, so they see code units.
* The built-ins whose behaviour is a Unicode table or belongs to the host
  (`String.prototype.normalize`, `toLowerCase` outside ASCII, `path.join`,
  `JSON.parse`) are fields of `Host`; the file system seen by one request is a
  `FileSystem` snapshot.
-/

namespace PresetCatalog

/-- A JavaScript string, as its sequence of UTF-16 code units. -/
abbrev JSString := List Nat

/-- UTF-16 code units of one Unicode scalar value. -/
def utf16Char (c : Char) : JSString :=
  if c.toNat < 0x10000 then [c.toNat]
  else [0xD800 + (c.toNat - 0x10000) / 0x400, 0xDC00 + (c.toNat - 0x10000) % 0x400]

/-- The JavaScript string written by a Lean string literal. -/
def utf16 (s : String) : JSString := s.toList.flatMap utf16Char

/-- Code unit of `-`. -/
abbrev hyphen : Nat := 45

/-- Code units below 128. -/
def isAscii (c : Nat) : Bool := decide (c < 128)

/-- Character class `[a-zA-Z0-9]`. -/
def isAlnum (c : Nat) : Bool :=
  (decide (97 ≤ c) && decide (c ≤ 122)) || (decide (65 ≤ c) && decide (c ≤ 90)) ||
    (decide (48 ≤ c) && decide (c ≤ 57))

/-- Character class `[\u0300-\u036f]`. -/
def isCombiningMark (c : Nat) : Bool := decide (0x300 ≤ c) && decide (c ≤ 0x36f)

/-- Lower-casing of one ASCII code unit: `A`..`Z` go to `a`..`z`. -/
def asciiLower (c : Nat) : Nat := if 65 ≤ c ∧ c ≤ 90 then c + 32 else c

/-- JSON values, as produced by `JSON.parse`. Numbers are kept as integers: the
program only tests them for truthiness and strict equality with `true`. -/
inductive JSON where
  | null : JSON
  | bool (b : Bool) : JSON
  | num (n : Int) : JSON
  | str (s : JSString) : JSON
  | arr (items : List JSON) : JSON
  | obj (fields : List (JSString × JSON)) : JSON

/-- Built-ins of the host that the program calls and that are not its own code. -/
structure Host where
  /-- `String.prototype.normalize("NFKD")` on strings with a code unit above 127. -/
  nfkdTable : JSString → JSString
  /-- `String.prototype.toLowerCase` on strings with a code unit above 127. -/
  lowerTable : JSString → JSString
  /-- Case mapping sends no character to nothing. -/
  lowerTable_ne_nil : ∀ s, s ≠ [] → lowerTable s ≠ []
  /-- `path.join` of two segments. -/
  pathJoin : JSString → JSString → JSString
  /-- `JSON.parse`: `none` when it throws a `SyntaxError`. -/
  jsonParse : JSString → Option JSON
  /-- The module-level `DATA_DIR`. -/
  DATA_DIR : JSString

/-- `s.normalize("NFKD")`: ASCII characters have no decomposition, so a string of
ASCII code units is returned as it is; other strings go through the table. -/
def normalizeNFKD (h : Host) (s : JSString) : JSString :=
  if s.all isAscii then s else h.nfkdTable s

/-- `s.toLowerCase()`: on a string of ASCII code units the default case mapping
is the per-character map of `A`..`Z`; other strings go through the table. -/
def toLowerCase (h : Host) (s : JSString) : JSString :=
  if s.all isAscii then s.map asciiLower else h.lowerTable s

/-- `normalize`: `(s ?? "").toString()`, with `none` for `null`/`undefined`. -/
def normalize (s : Option JSString) : JSString := s.getD []

/-- `.replace(/[\u0300-\u036f]/g, "")`. -/
def stripMarks (s : JSString) : JSString := s.filter fun c => !isCombiningMark c

/-- `.replace(/[^a-zA-Z0-9]+/g, "-")`, scanning left to right; `inRun` says that
the previous code unit belonged to a run already replaced. -/
def collapseRuns : Bool → JSString → JSString
  | _, [] => []
  | inRun, c :: cs =>
    if isAlnum c then c :: collapseRuns false cs
    else if inRun then collapseRuns true cs
    else hyphen :: collapseRuns true cs

/-- `.replace(/(^-|-$)+/g, "")`, scanning left to right. Without the `m` flag
`^-` matches a hyphen at index 0 only and `-$` a hyphen that is the last code
unit only, so exactly those hyphens are deleted. -/
def trimEdgeHyphens : Bool → JSString → JSString
  | _, [] => []
  | atStart, c :: cs =>
    if c = hyphen ∧ (atStart = true ∨ cs = []) then trimEdgeHyphens false cs
    else c :: trimEdgeHyphens false cs

/-- `slugify` (app.mjs lines 37-43). -/
def slugify (h : Host) (s : Option JSString) : JSString :=
  toLowerCase h (trimEdgeHyphens true (collapseRuns false (stripMarks (normalizeNFKD h (normalize s)))))

/-- `safePresetPath` (app.mjs lines 46-49). -/
def safePresetPath (h : Host) (nameOrSlug : Option JSString) : JSString :=
  h.pathJoin h.DATA_DIR (slugify h nameOrSlug ++ utf16 ".json")

/-- The one kind of failure the routes can meet outside the guarded reads: a
`TypeError` thrown by a property access or a method call. -/
inductive JSError where
  | typeError : JSError

/-- A value of `req.query`: a string, an array or a nested object. -/
inductive QueryValue where
  | str (s : JSString) : QueryValue
  | arr (items : List QueryValue) : QueryValue
  | obj (fields : List (JSString × QueryValue)) : QueryValue

mutual
/-- `v.toString()` of a query value. -/
def QueryValue.toStr : QueryValue → JSString
  | .str s => s
  | .arr items => QueryValue.joinItems items
  | .obj _ => utf16 "[object Object]"
/-- `Array.prototype.join(",")` over the string forms of the items. -/
def QueryValue.joinItems : List QueryValue → JSString
  | [] => []
  | [x] => x.toStr
  | x :: y :: r => x.toStr ++ (44 :: QueryValue.joinItems (y :: r))
end

/-- Truthiness of a query value: only the empty string is falsy. -/
def QueryValue.truthy : QueryValue → Bool
  | .str s => !s.isEmpty
  | _ => true

/-- The three recognised options of `req.query`; `none` is `undefined`. -/
structure Query where
  q : Option QueryValue
  type : Option QueryValue
  factory : Option QueryValue

/-- Truthiness of a JSON value. -/
def JSON.truthy : JSON → Bool
  | .null => false
  | .bool b => b
  | .num n => decide (n ≠ 0)
  | .str s => !s.isEmpty
  | .arr _ => true
  | .obj _ => true

/-- Lookup of an own property of a parsed object. -/
def lookupField (key : JSString) : List (JSString × JSON) → Option JSON
  | [] => none
  | (k, v) :: rest => if k = key then some v else lookupField key rest

/-- Reading `p.name`, `p.type` or `p.factory` of a parsed value; `none` is
`undefined`. Reading a property of `null` throws; strings, numbers, booleans
and arrays have no property of these names, nor has `Object.prototype`. -/
def getField (p : JSON) (key : JSString) : Except JSError (Option JSON) :=
  match p with
  | .null => .error .typeError
  | .obj fields => .ok (lookupField key fields)
  | _ => .ok none

/-- `s.includes(q)`: `q` occurs in `s` as a contiguous block. -/
def includes (s q : JSString) : Bool := decide (q <:+: s)

/-- `(x || "").toLowerCase().includes(needle)` for `x` the value read from a
field: a falsy or absent `x` gives `""`; a truthy `x` that is not a string has
no `toLowerCase` method and the call throws. -/
def fieldIncludes (h : Host) (x : Option JSON) (needle : JSString) : Except JSError Bool :=
  match x with
  | none => .ok (includes (toLowerCase h []) needle)
  | some v =>
    if v.truthy then
      match v with
      | .str s => .ok (includes (toLowerCase h s) needle)
      | _ => .error .typeError
    else .ok (includes (toLowerCase h []) needle)

/-- `Array.prototype.filter` with a callback that may throw. -/
def filterE {α : Type} (f : α → Except JSError Bool) : List α → Except JSError (List α)
  | [] => .ok []
  | x :: xs =>
    match f x with
    | .error e => .error e
    | .ok b =>
      match filterE f xs with
      | .error e => .error e
      | .ok r => .ok (if b then x :: r else r)

/-- Callback of the text search (app.mjs lines 109-111). -/
def nameMatches (h : Host) (q : JSString) (p : JSON) : Except JSError Bool :=
  match getField p (utf16 "name") with
  | .error e => .error e
  | .ok x => fieldIncludes h x q

/-- Callback of the type filter (app.mjs lines 117-119). -/
def typeMatches (h : Host) (t : JSString) (p : JSON) : Except JSError Bool :=
  match getField p (utf16 "type") with
  | .error e => .error e
  | .ok x => fieldIncludes h x t

/-- Callback of the factory filter (app.mjs line 124): `p.factory === true`. -/
def factoryIsTrue (p : JSON) : Except JSError Bool :=
  match getField p (utf16 "factory") with
  | .error e => .error e
  | .ok (some (.bool true)) => .ok true
  | .ok _ => .ok false

/-- Text search step (app.mjs lines 107-112). -/
def filterByQ (h : Host) (query : Query) (filtered : List JSON) : Except JSError (List JSON) :=
  match query.q with
  | none => .ok filtered
  | some v =>
    if v.truthy then filterE (nameMatches h (toLowerCase h v.toStr)) filtered
    else .ok filtered

/-- Type filter step (app.mjs lines 115-120). -/
def filterByType (h : Host) (query : Query) (filtered : List JSON) : Except JSError (List JSON) :=
  match query.type with
  | none => .ok filtered
  | some v =>
    if v.truthy then filterE (typeMatches h (toLowerCase h v.toStr)) filtered
    else .ok filtered

/-- Factory filter step (app.mjs lines 123-125). -/
def filterByFactory (query : Query) (filtered : List JSON) : Except JSError (List JSON) :=
  match query.factory with
  | none => .ok filtered
  | some v =>
    if v.truthy ∧ v.toStr = utf16 "true" then filterE factoryIsTrue filtered
    else .ok filtered

/-- Step 3 of the list route: the three filters in the order of the source. -/
def applyFilters (h : Host) (query : Query) (presets : List JSON) : Except JSError (List JSON) :=
  match filterByQ h query presets with
  | .error e => .error e
  | .ok a =>
    match filterByType h query a with
    | .error e => .error e
    | .ok b => filterByFactory query b

/-- The file system as one request sees it. -/
structure FileSystem where
  /-- `fs.readdir(dir)`: `none` when it rejects. -/
  readdir : JSString → Option (List JSString)
  /-- `fs.readFile(p, "utf8")`: `none` when it rejects. -/
  readFile : JSString → Option JSString
  /-- `fs.access(p)` resolves. -/
  access : JSString → Bool

/-- `f.endsWith(suffix)`. -/
def endsWith (f suffix : JSString) : Bool := decide (suffix <:+ f)

/-- `listPresetFiles` (app.mjs lines 62-68). -/
def listPresetFiles (h : Host) (fs : FileSystem) : List JSString :=
  ((fs.readdir h.DATA_DIR).getD []).filter fun f => endsWith f (utf16 ".json")

/-- `fileExists` (app.mjs lines 51-53). -/
def fileExists (fs : FileSystem) (p : JSString) : Bool := fs.access p

/-- `readJSON` (app.mjs line 56): `none` when the read or the parse throws. -/
def readJSON (h : Host) (fs : FileSystem) (filePath : JSString) : Option JSON :=
  (fs.readFile filePath).bind h.jsonParse

/-- Step 2 of the list route (app.mjs lines 93-101): the presets pushed, and the
file names passed to `console.warn`, both in the order of the loop. -/
def readPresets (h : Host) (fs : FileSystem) : List JSString → List JSON × List JSString
  | [] => ([], [])
  | f :: rest =>
    let r := readPresets h fs rest
    match readJSON h fs (h.pathJoin h.DATA_DIR f) with
    | some preset => (preset :: r.1, r.2)
    | none => (r.1, f :: r.2)

/-- An HTTP response: status code and JSON body. -/
structure Response where
  status : Nat
  body : JSON

/-- The error handler (app.mjs lines 155-158). -/
def internalServerError : Response :=
  ⟨500, .obj [(utf16 "error", .str (utf16 "Internal Server Error"))]⟩

/-- Steps 1 and 2 of the list route: the array `presets` when the filters start. -/
def parsedPresets (h : Host) (fs : FileSystem) : List JSON :=
  (readPresets h fs (listPresetFiles h fs)).1

/-- `GET /api/presets` (app.mjs lines 87-132). -/
def listRoute (h : Host) (fs : FileSystem) (query : Query) : Response :=
  match applyFilters h query (parsedPresets h fs) with
  | .ok filtered => ⟨200, .arr filtered⟩
  | .error _ => internalServerError

/-- The message of the 404 answer: the template `Preset '${presetName}' not found`. -/
def notFoundMessage (presetName : JSString) : JSString :=
  utf16 "Preset '" ++ presetName ++ utf16 "' not found"

/-- `GET /api/presets/:name` (app.mjs lines 135-152). -/
def getPresetRoute (h : Host) (fs : FileSystem) (presetName : JSString) : Response :=
  let file := safePresetPath h (some presetName)
  if fileExists fs file then
    match readJSON h fs file with
    | some preset => ⟨200, preset⟩
    | none => internalServerError
  else ⟨404, .obj [(utf16 "error", .str (notFoundMessage presetName))]⟩

/-- Character class `[a-z0-9-]`. -/
def isSlugChar (c : Nat) : Bool :=
  (decide (97 ≤ c) && decide (c ≤ 122)) || (decide (48 ≤ c) && decide (c ≤ 57)) ||
    decide (c = hyphen)

/-- Scan for the maximal runs of `[A-Za-z0-9]` code units; `cur` is the run
being read. -/
def runsFrom (cur : JSString) : JSString → List JSString
  | [] => if cur = [] then [] else [cur]
  | c :: cs =>
    if isAlnum c then runsFrom (cur ++ [c]) cs
    else if cur = [] then runsFrom [] cs
    else cur :: runsFrom [] cs

/-- The maximal `[A-Za-z0-9]` runs of a string, left to right. -/
def alnumRuns (s : JSString) : List JSString := runsFrom [] s

/-- The slug in the words of the specification: the maximal `[A-Za-z0-9]` runs
of the string, after NFKD decomposition and deletion of combining marks,
lowercased and joined by a single `-`. -/
def slugSpec (h : Host) (s : Option JSString) : JSString :=
  [hyphen].intercalate
    ((alnumRuns (stripMarks (normalizeNFKD h (normalize s)))).map (toLowerCase h))

/-- No two neighbouring code units are both `-`. -/
def NoDoubleHyphen (r : JSString) : Prop :=
  List.Chain' (fun a b => ¬(a = hyphen ∧ b = hyphen)) r

/-! ## The filters in the words of the specification -/

/-- The text of a field of a preset, taken as the empty string when the field
is absent (or holds no string). -/
def fieldText (key : JSString) : JSON → JSString
  | .obj fields =>
    match lookupField key fields with
    | some (.str s) => s
    | _ => []
  | _ => []

/-- The field `key` of the value can be read as text: the value is not `null`,
and the field is absent, a string, or a falsy value (which `|| ""` replaces). -/
def hasTextField (key : JSString) : JSON → Bool
  | .null => false
  | .obj fields =>
    match lookupField key fields with
    | none => true
    | some (.str _) => true
    | some v => !v.truthy
  | _ => true

/-- The `factory` field of the preset is the boolean `true`. -/
def isFactory : JSON → Bool
  | .obj fields =>
    match lookupField (utf16 "factory") fields with
    | some (.bool true) => true
    | _ => false
  | _ => false

/-- The preset passes the `q` option: no restriction when the option is absent
or empty, else its name contains the option, both lowercased. -/
def keepsQ (h : Host) (query : Query) (p : JSON) : Bool :=
  match query.q with
  | none => true
  | some v =>
    if v.truthy then includes (toLowerCase h (fieldText (utf16 "name") p)) (toLowerCase h v.toStr)
    else true

/-- The preset passes the `type` option: no restriction when the option is
absent or empty, else its type contains the option, both lowercased. -/
def keepsType (h : Host) (query : Query) (p : JSON) : Bool :=
  match query.type with
  | none => true
  | some v =>
    if v.truthy then includes (toLowerCase h (fieldText (utf16 "type") p)) (toLowerCase h v.toStr)
    else true

/-- The preset passes the `factory` option: a restriction only when the string
form of the option is `"true"`, and then to the presets whose `factory` is `true`. -/
def keepsFactory (query : Query) (p : JSON) : Bool :=
  match query.factory with
  | none => true
  | some v => if v.truthy ∧ v.toStr = utf16 "true" then isFactory p else true

/-! ## Fixtures for the examples -/

/-- The preset `Basic Kit` of the examples. -/
def basicKit : JSON :=
  .obj [(utf16 "name", .str (utf16 "Basic Kit")), (utf16 "type", .str (utf16 "Drumkit")),
    (utf16 "factory", .bool true)]

/-- The preset `Ambient Pad` of the examples. -/
def ambientPad : JSON :=
  .obj [(utf16 "name", .str (utf16 "Ambient Pad")), (utf16 "type", .str (utf16 "Synth")),
    (utf16 "factory", .str (utf16 "true"))]

/-- Text of `basicKit`. -/
def basicKitText : JSString :=
  utf16 "\x7b\"name\":\"Basic Kit\",\"type\":\"Drumkit\",\"factory\":true\x7d"

/-- Text of `ambientPad`. -/
def ambientPadText : JSString :=
  utf16 "\x7b\"name\":\"Ambient Pad\",\"type\":\"Synth\",\"factory\":\"true\"\x7d"

/-- A host for the examples: identity tables, `path.join` of a directory and a
file name, and `JSON.parse` restricted to the three texts the examples store
(every other text is taken as malformed). -/
def sampleHost : Host where
  nfkdTable := id
  lowerTable := id
  lowerTable_ne_nil := fun _ hs => hs
  pathJoin := fun dir file => dir ++ (47 :: file)
  jsonParse := fun text =>
    if text = basicKitText then some basicKit
    else if text = ambientPadText then some ambientPad
    else if text = utf16 "null" then some .null
    else none
  DATA_DIR := utf16 "/data/presets"

/-- A directory with two valid presets, one corrupt `.json` file and one entry
that is not a `.json` file. -/
def sampleFs : FileSystem where
  readdir := fun dir =>
    if dir = utf16 "/data/presets" then
      some [utf16 "basic-kit.json", utf16 "broken.json", utf16 "notes.txt",
        utf16 "ambient-pad.json"]
    else none
  readFile := fun file =>
    if file = utf16 "/data/presets/basic-kit.json" then some basicKitText
    else if file = utf16 "/data/presets/broken.json" then some (utf16 "not json")
    else if file = utf16 "/data/presets/ambient-pad.json" then some ambientPadText
    else if file = utf16 "/data/presets/notes.txt" then some (utf16 "null")
    else none
  access := fun file =>
    decide (file ∈ [utf16 "/data/presets/basic-kit.json", utf16 "/data/presets/broken.json",
      utf16 "/data/presets/ambient-pad.json", utf16 "/data/presets/notes.txt"])

/-- A directory whose only file holds the JSON text `null`. -/
def nullFs : FileSystem where
  readdir := fun _ => some [utf16 "empty.json"]
  readFile := fun _ => some (utf16 "null")
  access := fun _ => true

/-- A record whose `name` is the number 5. -/
def numberNameRecord : JSON := .obj [(utf16 "name", .num 5)]

/-- Text of `numberNameRecord`. -/
def numberNameText : JSString := utf16 "\x7b\"name\":5\x7d"

/-- The host of the examples with a `JSON.parse` that also knows the text of
`numberNameRecord`. -/
def looseHost : Host where
  nfkdTable := id
  lowerTable := id
  lowerTable_ne_nil := fun _ hs => hs
  pathJoin := fun dir file => dir ++ (47 :: file)
  jsonParse := fun text =>
    if text = basicKitText then some basicKit
    else if text = numberNameText then some numberNameRecord
    else if text = utf16 "null" then some .null
    else none
  DATA_DIR := utf16 "/data/presets"

/-- A directory with the preset `Basic Kit` and a file whose record has the
number 5 as its name. -/
def numberNameFs : FileSystem where
  readdir := fun _ => some [utf16 "basic-kit.json", utf16 "odd.json"]
  readFile := fun file =>
    if file = utf16 "/data/presets/basic-kit.json" then some basicKitText
    else if file = utf16 "/data/presets/odd.json" then some numberNameText
    else none
  access := fun _ => true

/-- A directory with the preset `Basic Kit` and a file that holds the JSON
text `null`. -/
def nullRecordFs : FileSystem where
  readdir := fun _ => some [utf16 "basic-kit.json", utf16 "empty.json"]
  readFile := fun file =>
    if file = utf16 "/data/presets/basic-kit.json" then some basicKitText
    else if file = utf16 "/data/presets/empty.json" then some (utf16 "null")
    else none
  access := fun _ => true

/-! ## `path.join` of Node.js on POSIX

`path.join` is a built-in, a field of `Host`. The definitions below follow the
POSIX implementation (`lib/path.js`: `join`, `normalize`, `normalizeString`),
segment by segment, for the statement on where `safePresetPath` points. -/

/-- Code unit of `/`. -/
abbrev slash : Nat := 47

/-- Code unit of `.`. -/
abbrev dot : Nat := 46

/-- The segments of a path between its `/` separators. -/
def splitSlash : JSString → List JSString
  | [] => [[]]
  | c :: cs =>
    if c = slash then [] :: splitSlash cs
    else
      match splitSlash cs with
      | seg :: rest => (c :: seg) :: rest
      | [] => [[c]]

/-- One segment in `normalizeString`: an empty segment and `.` are dropped; `..`
removes the last kept segment when there is one other than `..`, else it is
kept when the path is relative; any other segment is kept. -/
def normalizeSegment (allowAboveRoot : Bool) (res : List JSString) (seg : JSString) :
    List JSString :=
  if seg = [] ∨ seg = [dot] then res
  else if seg = [dot, dot] then
    if res ≠ [] ∧ res.getLast? ≠ some [dot, dot] then res.dropLast
    else if allowAboveRoot then res ++ [[dot, dot]]
    else res
  else res ++ [seg]

/-- The segments `normalizeString` keeps of a path. -/
def posixSegments (path : JSString) : List JSString :=
  (splitSlash path).foldl (normalizeSegment (decide (path.head? ≠ some slash))) []

/-- The function `path.posix.normalize`. -/
def posixNormalize (path : JSString) : JSString :=
  if path = [] then [dot]
  else
    let isAbsolute := decide (path.head? = some slash)
    let trailingSeparator := decide (path.getLast? = some slash)
    let body := [slash].intercalate (posixSegments path)
    if body = [] then
      if isAbsolute then [slash] else if trailingSeparator then [dot, slash] else [dot]
    else
      (if isAbsolute then [slash] else []) ++ body ++ (if trailingSeparator then [slash] else [])

/-- The function `path.posix.join` of two arguments: the non-empty arguments
joined by `/`, then normalized. -/
def posixJoin (a b : JSString) : JSString :=
  if a = [] then (if b = [] then [dot] else posixNormalize b)
  else if b = [] then posixNormalize a
  else posixNormalize (a ++ slash :: b)

/-- A host that joins paths as `path.posix.join` does, with a data directory
written with `..`, `.` and a trailing separator. -/
def posixHost : Host where
  nfkdTable := id
  lowerTable := id
  lowerTable_ne_nil := fun _ hs => hs
  pathJoin := posixJoin
  jsonParse := fun _ => none
  DATA_DIR := utf16 "/srv/app/../data/./presets/"

end PresetCatalog

/-! # Sampler pads (`Seance4_IntroWebAudio/Example3/js/main.js`)

The part of `loadAndShow` that places the decoded samples on the 4x4 grid
(lines 125-149). A decoded sample (its `buf` and `name`) is a value of an
arbitrary type; `null` is `none`. -/

namespace PadGrid

/-- The constant `cols` of `loadAndShow`. -/
abbrev cols : Nat := 4

/-- The constant `rows` of `loadAndShow`. -/
abbrev rows : Nat := 4

/-- An entry of `padBuffers` that is not `null`: the sample and its index in `good`. -/
structure PadInfo (α : Type) where
  sample : α
  sampleIndex : Nat

/-- The array `good` (line 125): the results that decoded, in their order. -/
def goodSamples {α : Type} (results : List (Option α)) : List α :=
  results.filterMap id

/-- The pad index computed in the body of the loop (lines 132-135). -/
def padIndex (i : Nat) : Nat :=
  let col := i % cols
  let rowFromBottom := i / cols
  let row := rows - 1 - rowFromBottom
  row * cols + col

/-- The loop of lines 131-137 from iteration `i` on, over the samples of `good`
not yet visited. It stops at the end of `good` or at `i = cols * rows`. -/
def assignFrom {α : Type} :
    Nat → List α → List (Option (PadInfo α)) → List (Option (PadInfo α))
  | _, [], padBuffers => padBuffers
  | i, s :: rest, padBuffers =>
    if i < cols * rows then
      assignFrom (i + 1) rest (padBuffers.set (padIndex i) (some ⟨s, i⟩))
    else padBuffers

/-- The array `padBuffers` after the loop (lines 129-137). -/
def padBuffers {α : Type} (good : List α) : List (Option (PadInfo α)) :=
  assignFrom 0 good (List.replicate (cols * rows) none)

/-- A pad element: whether it got the class `disabled`, and what it plays. -/
structure Pad (α : Type) where
  disabled : Bool
  info : Option (PadInfo α)

/-- The pad elements appended to the grid (lines 140-149), row by row; a pad
whose `info` is `null` is disabled. -/
def createPads {α : Type} (good : List α) : List (Pad α) :=
  (List.range rows).flatMap fun r =>
    (List.range cols).map fun c =>
      let info := ((padBuffers good)[r * cols + c]?).join
      ⟨info.isNone, info⟩

end PadGrid

namespace PresetCatalog

/-! ## `slugify`: shape of the result -/

theorem isAlnum_ne_hyphen {c : Nat} (hc : isAlnum c = true) : c ≠ hyphen := by
  rintro rfl
  simp [isAlnum, hyphen] at hc

theorem isAlnum_isAscii {c : Nat} (hc : isAlnum c = true) : isAscii c = true := by
  simp only [isAlnum, isAscii, Bool.or_eq_true, Bool.and_eq_true, decide_eq_true_eq] at *
  omega

theorem isSlugChar_asciiLower {c : Nat} (hc : isAlnum c = true ∨ c = hyphen) :
    isSlugChar (asciiLower c) = true := by
  rcases hc with hc | rfl
  · simp only [isAlnum, isSlugChar, asciiLower, hyphen, Bool.or_eq_true, Bool.and_eq_true,
      decide_eq_true_eq] at *
    split <;> omega
  · decide

theorem asciiLower_eq_hyphen {c : Nat} : asciiLower c = hyphen ↔ c = hyphen := by
  simp only [asciiLower, hyphen]
  split <;> omega

theorem collapseRuns_alnum {c : Nat} (hc : isAlnum c = true) (b : Bool) (cs : JSString) :
    collapseRuns b (c :: cs) = c :: collapseRuns false cs := by
  rw [collapseRuns, if_pos hc]

theorem collapseRuns_skip {c : Nat} (hc : isAlnum c = false) (cs : JSString) :
    collapseRuns true (c :: cs) = collapseRuns true cs := by
  rw [collapseRuns, if_neg (by simp [hc]), if_pos rfl]

theorem collapseRuns_open {c : Nat} (hc : isAlnum c = false) (cs : JSString) :
    collapseRuns false (c :: cs) = hyphen :: collapseRuns true cs := by
  rw [collapseRuns, if_neg (by simp [hc]), if_neg (by simp)]

theorem collapseRuns_mem (s : JSString) :
    ∀ b c, c ∈ collapseRuns b s → isAlnum c = true ∨ c = hyphen := by
  induction s with
  | nil => intro b c hc; simp [collapseRuns] at hc
  | cons a s ih =>
    intro b c hc
    cases ha : isAlnum a with
    | true =>
      rw [collapseRuns_alnum ha, List.mem_cons] at hc
      rcases hc with rfl | hc
      · exact Or.inl ha
      · exact ih _ _ hc
    | false =>
      cases b with
      | true =>
        rw [collapseRuns_skip ha] at hc
        exact ih _ _ hc
      | false =>
        rw [collapseRuns_open ha, List.mem_cons] at hc
        rcases hc with rfl | hc
        · exact Or.inr rfl
        · exact ih _ _ hc

theorem collapseRuns_chain (s : JSString) :
    ∀ b, NoDoubleHyphen (collapseRuns b s) ∧
      (b = true → (collapseRuns b s).head? ≠ some hyphen) := by
  induction s with
  | nil => intro b; simp [collapseRuns, NoDoubleHyphen]
  | cons a s ih =>
    intro b
    cases ha : isAlnum a with
    | true =>
      rw [collapseRuns_alnum ha, List.head?_cons]
      refine ⟨?_, fun _ hEq => isAlnum_ne_hyphen ha (Option.some.inj hEq)⟩
      unfold NoDoubleHyphen
      rw [List.chain'_cons']
      exact ⟨fun y _ hh => isAlnum_ne_hyphen ha hh.1, (ih false).1⟩
    | false =>
      cases b with
      | true =>
        rw [collapseRuns_skip ha]
        exact ih true
      | false =>
        rw [collapseRuns_open ha]
        refine ⟨?_, fun hb => by cases hb⟩
        unfold NoDoubleHyphen
        rw [List.chain'_cons']
        refine ⟨fun y hy hh => ?_, (ih true).1⟩
        apply (ih true).2 rfl
        rw [Option.mem_def] at hy
        rw [hy, hh.2]

theorem trimEdgeHyphens_false_append (s : JSString) (c : Nat) :
    trimEdgeHyphens false (s ++ [c]) = if c = hyphen then s else s ++ [c] := by
  induction s with
  | nil =>
    by_cases hc : c = hyphen <;> simp [trimEdgeHyphens, hc]
  | cons a s ih =>
    have hne : s ++ [c] ≠ [] := by simp
    rw [List.cons_append, trimEdgeHyphens]
    simp only [hne, or_false, and_false, if_false, ih, Bool.false_eq_true]
    split <;> rfl

theorem trimEdgeHyphens_true_cons (c : Nat) (cs : JSString) :
    trimEdgeHyphens true (c :: cs) =
      if c = hyphen then trimEdgeHyphens false cs else c :: trimEdgeHyphens false cs := by
  rw [trimEdgeHyphens]
  simp

theorem trimEdgeHyphens_false_initial (s : JSString) : trimEdgeHyphens false s <+: s := by
  rcases List.eq_nil_or_concat s with rfl | ⟨u, c, rfl⟩
  · simp [trimEdgeHyphens]
  · rw [List.concat_eq_append, trimEdgeHyphens_false_append]
    split
    · exact List.prefix_append _ _
    · exact List.prefix_refl _

theorem trimEdgeHyphens_true_segment (s : JSString) : trimEdgeHyphens true s <:+: s := by
  cases s with
  | nil => simp [trimEdgeHyphens]
  | cons c cs =>
    rw [trimEdgeHyphens_true_cons]
    split
    · exact (trimEdgeHyphens_false_initial cs).isInfix.trans (List.suffix_cons c cs).isInfix
    · exact ((List.prefix_cons_inj c).2 (trimEdgeHyphens_false_initial cs)).isInfix

theorem head?_of_initial {p l : JSString} (hp : p <+: l) : p.head? = none ∨ p.head? = l.head? := by
  obtain ⟨t, rfl⟩ := hp
  cases p with
  | nil => exact Or.inl rfl
  | cons a p => exact Or.inr rfl

theorem trimEdgeHyphens_false_getLast (s : JSString) (hs : NoDoubleHyphen s) :
    (trimEdgeHyphens false s).getLast? ≠ some hyphen := by
  rcases List.eq_nil_or_concat s with rfl | ⟨u, c, rfl⟩
  · simp [trimEdgeHyphens]
  · rw [List.concat_eq_append] at hs ⊢
    rw [trimEdgeHyphens_false_append]
    split
    · rename_i hc
      subst hc
      unfold NoDoubleHyphen at hs
      rw [List.chain'_append] at hs
      intro hu
      exact hs.2.2 hyphen (by rw [Option.mem_def]; exact hu) hyphen (by simp) ⟨rfl, rfl⟩
    · rename_i hc
      rw [List.getLast?_concat]
      exact fun hEq => hc (Option.some.inj hEq)

theorem trimEdgeHyphens_true_head (s : JSString) (hs : NoDoubleHyphen s) :
    (trimEdgeHyphens true s).head? ≠ some hyphen := by
  cases s with
  | nil => simp [trimEdgeHyphens]
  | cons c cs =>
    rw [trimEdgeHyphens_true_cons]
    unfold NoDoubleHyphen at hs
    rw [List.chain'_cons'] at hs
    split
    · rename_i hc
      rcases head?_of_initial (trimEdgeHyphens_false_initial cs) with h0 | h0
      · rw [h0]; simp
      · rw [h0]
        intro hh
        exact hs.1 hyphen (by rw [Option.mem_def]; exact hh) ⟨hc, rfl⟩
    · rename_i hc
      simpa using hc

theorem trimEdgeHyphens_true_getLast (s : JSString) (hs : NoDoubleHyphen s) :
    (trimEdgeHyphens true s).getLast? ≠ some hyphen := by
  cases s with
  | nil => simp [trimEdgeHyphens]
  | cons c cs =>
    rw [trimEdgeHyphens_true_cons]
    have hcs : NoDoubleHyphen cs := List.Chain'.tail hs
    have h1 := trimEdgeHyphens_false_getLast cs hcs
    split
    · exact h1
    · rename_i hc
      cases hT : trimEdgeHyphens false cs with
      | nil => simpa using hc
      | cons d ds =>
        rw [hT] at h1
        rw [List.getLast?_cons_cons]
        exact h1

/-- What the two `replace` calls on runs and edges leave: letters, digits and
hyphens, no doubled hyphen, no hyphen at either end. -/
theorem trimmed_shape (t : JSString) :
    (∀ c ∈ trimEdgeHyphens true (collapseRuns false t), isAlnum c = true ∨ c = hyphen) ∧
    NoDoubleHyphen (trimEdgeHyphens true (collapseRuns false t)) ∧
    (trimEdgeHyphens true (collapseRuns false t)).head? ≠ some hyphen ∧
    (trimEdgeHyphens true (collapseRuns false t)).getLast? ≠ some hyphen := by
  have hchain := (collapseRuns_chain t false).1
  have hinf := trimEdgeHyphens_true_segment (collapseRuns false t)
  refine ⟨fun c hc => collapseRuns_mem t false c (hinf.subset hc), ?_,
    trimEdgeHyphens_true_head _ hchain, trimEdgeHyphens_true_getLast _ hchain⟩
  exact List.Chain'.infix hchain hinf

theorem toLowerCase_of_slugChars (h : Host) (r : JSString)
    (hr : ∀ c ∈ r, isAlnum c = true ∨ c = hyphen) : toLowerCase h r = r.map asciiLower := by
  have hall : r.all isAscii = true := by
    rw [List.all_eq_true]
    intro c hc
    rcases hr c hc with h1 | rfl
    · exact isAlnum_isAscii h1
    · decide
  rw [toLowerCase, if_pos hall]

theorem slugify_eq_map (h : Host) (s : Option JSString) :
    slugify h s = (trimEdgeHyphens true (collapseRuns false
      (stripMarks (normalizeNFKD h (normalize s))))).map asciiLower := by
  rw [slugify, toLowerCase_of_slugChars h _ (trimmed_shape _).1]

theorem slugify_shape_aux (h : Host) (s : Option JSString) :
    (∀ c ∈ slugify h s, isSlugChar c = true) ∧
    NoDoubleHyphen (slugify h s) ∧
    (slugify h s).head? ≠ some hyphen ∧
    (slugify h s).getLast? ≠ some hyphen := by
  rw [slugify_eq_map]
  obtain ⟨hmem, hchain, hhead, hlast⟩ :=
    trimmed_shape (stripMarks (normalizeNFKD h (normalize s)))
  generalize trimEdgeHyphens true (collapseRuns false
    (stripMarks (normalizeNFKD h (normalize s)))) = r at hmem hchain hhead hlast
  refine ⟨?_, ?_, ?_, ?_⟩
  · intro c hc
    obtain ⟨d, hd, rfl⟩ := List.mem_map.1 hc
    exact isSlugChar_asciiLower (hmem d hd)
  · unfold NoDoubleHyphen
    rw [List.chain'_map]
    exact hchain.imp fun {a b} hab hh =>
      hab ⟨asciiLower_eq_hyphen.1 hh.1, asciiLower_eq_hyphen.1 hh.2⟩
  · rw [List.head?_map]
    intro hEq
    cases hr : r.head? with
    | none => rw [hr] at hEq; cases hEq
    | some d =>
      rw [hr] at hEq hhead
      exact hhead (by rw [asciiLower_eq_hyphen.1 (Option.some.inj hEq)])
  · rw [List.getLast?_map]
    intro hEq
    cases hr : r.getLast? with
    | none => rw [hr] at hEq; cases hEq
    | some d =>
      rw [hr] at hEq hlast
      exact hlast (by rw [asciiLower_eq_hyphen.1 (Option.some.inj hEq)])

/-! ## `slugify`: the runs of letters and digits -/

theorem runsFrom_alnum {c : Nat} (hc : isAlnum c = true) (cur cs : JSString) :
    runsFrom cur (c :: cs) = runsFrom (cur ++ [c]) cs := by
  rw [runsFrom, if_pos hc]

theorem runsFrom_sep {c : Nat} (hc : isAlnum c = false) (cur cs : JSString) :
    runsFrom cur (c :: cs) = if cur = [] then runsFrom [] cs else cur :: runsFrom [] cs := by
  rw [runsFrom, if_neg (by simp [hc])]

theorem runsFrom_hyphen (cur cs : JSString) :
    runsFrom cur (hyphen :: cs) = if cur = [] then runsFrom [] cs else cur :: runsFrom [] cs :=
  runsFrom_sep (by decide) cur cs

theorem runsFrom_collapseRuns (s : JSString) :
    (∀ cur, runsFrom cur (collapseRuns false s) = runsFrom cur s) ∧
    runsFrom [] (collapseRuns true s) = runsFrom [] s := by
  induction s with
  | nil => simp [collapseRuns]
  | cons a s ih =>
    cases ha : isAlnum a with
    | true =>
      refine ⟨fun cur => ?_, ?_⟩
      · rw [collapseRuns_alnum ha, runsFrom_alnum ha, runsFrom_alnum ha, ih.1]
      · rw [collapseRuns_alnum ha, runsFrom_alnum ha, runsFrom_alnum ha, ih.1]
    | false =>
      refine ⟨fun cur => ?_, ?_⟩
      · rw [collapseRuns_open ha, runsFrom_hyphen, runsFrom_sep ha, ih.2]
      · rw [collapseRuns_skip ha, runsFrom_sep ha, if_pos rfl, ih.2]

theorem runsFrom_trim_false (s : JSString) :
    ∀ cur, runsFrom cur (trimEdgeHyphens false s) = runsFrom cur s := by
  induction s with
  | nil => intro cur; rfl
  | cons a s ih =>
    intro cur
    rw [trimEdgeHyphens]
    by_cases hc : a = hyphen ∧ (false = true ∨ s = [])
    · rw [if_pos hc]
      obtain ⟨rfl, hs⟩ := hc
      have hs' : s = [] := by simpa using hs
      subst hs'
      rw [runsFrom_hyphen]
      by_cases hcur : cur = [] <;> simp [trimEdgeHyphens, runsFrom, hcur]
    · rw [if_neg hc]
      cases ha : isAlnum a with
      | true => rw [runsFrom_alnum ha, runsFrom_alnum ha, ih]
      | false => rw [runsFrom_sep ha, runsFrom_sep ha, ih]

theorem runsFrom_trim_true (s : JSString) :
    runsFrom [] (trimEdgeHyphens true s) = runsFrom [] s := by
  cases s with
  | nil => rfl
  | cons a s =>
    rw [trimEdgeHyphens_true_cons]
    split
    · rename_i hc
      subst hc
      rw [runsFrom_hyphen, if_pos rfl, runsFrom_trim_false]
    · cases ha : isAlnum a with
      | true => rw [runsFrom_alnum ha, runsFrom_alnum ha, runsFrom_trim_false]
      | false => rw [runsFrom_sep ha, runsFrom_sep ha, runsFrom_trim_false]

theorem isAlnum_asciiLower (c : Nat) : isAlnum (asciiLower c) = isAlnum c := by
  rw [Bool.eq_iff_iff]
  simp only [isAlnum, asciiLower, Bool.or_eq_true, Bool.and_eq_true, decide_eq_true_eq]
  split <;> omega

theorem runsFrom_map_asciiLower (s : JSString) :
    ∀ cur, runsFrom (cur.map asciiLower) (s.map asciiLower) =
      (runsFrom cur s).map (List.map asciiLower) := by
  induction s with
  | nil =>
    intro cur
    by_cases hcur : cur = [] <;> simp [runsFrom, hcur]
  | cons a s ih =>
    intro cur
    rw [List.map_cons]
    cases ha : isAlnum a with
    | true =>
      have ha' : isAlnum (asciiLower a) = true := by rw [isAlnum_asciiLower, ha]
      rw [runsFrom_alnum ha', runsFrom_alnum ha, ← ih]
      simp
    | false =>
      have ha' : isAlnum (asciiLower a) = false := by rw [isAlnum_asciiLower, ha]
      rw [runsFrom_sep ha', runsFrom_sep ha]
      have h0 := ih []
      rw [List.map_nil] at h0
      by_cases hcur : cur = []
      · simp [hcur, h0]
      · simp [hcur, h0]

theorem runsFrom_mem_alnum (s : JSString) :
    ∀ cur, (∀ c ∈ cur, isAlnum c = true) → ∀ run ∈ runsFrom cur s, ∀ c ∈ run, isAlnum c = true := by
  induction s with
  | nil =>
    intro cur hcur run hrun
    by_cases h0 : cur = []
    · simp [runsFrom, h0] at hrun
    · simp only [runsFrom, h0, if_false, List.mem_singleton] at hrun
      subst hrun
      exact hcur
  | cons a s ih =>
    intro cur hcur run hrun
    cases ha : isAlnum a with
    | true =>
      rw [runsFrom_alnum ha] at hrun
      refine ih (cur ++ [a]) ?_ run hrun
      intro c hc
      rcases List.mem_append.1 hc with h1 | h1
      · exact hcur c h1
      · rw [List.mem_singleton.1 h1]; exact ha
    | false =>
      rw [runsFrom_sep ha] at hrun
      by_cases h0 : cur = []
      · rw [if_pos h0] at hrun
        exact ih [] (by simp) run hrun
      · rw [if_neg h0, List.mem_cons] at hrun
        rcases hrun with rfl | hrun
        · exact hcur
        · exact ih [] (by simp) run hrun

theorem intercalate_cons_of_ne_nil (sep x : JSString) (R : List JSString) (hR : R ≠ []) :
    sep.intercalate (x :: R) = x ++ sep ++ sep.intercalate R := by
  cases R with
  | nil => exact absurd rfl hR
  | cons y ys => simp [List.intercalate, List.intersperse]

/-- A string of letters, digits and single inner hyphens is its runs joined by `-`. -/
theorem intercalate_runsFrom (r : JSString) :
    ∀ cur, (∀ c ∈ r, isAlnum c = true ∨ c = hyphen) → NoDoubleHyphen r →
      r.getLast? ≠ some hyphen → (cur = [] → r.head? ≠ some hyphen) →
      [hyphen].intercalate (runsFrom cur r) = cur ++ r := by
  induction r with
  | nil =>
    intro cur _ _ _ _
    by_cases h0 : cur = [] <;> simp [runsFrom, h0, List.intercalate]
  | cons a r ih =>
    intro cur hmem hchain hlast hhead
    have hmem' : ∀ c ∈ r, isAlnum c = true ∨ c = hyphen :=
      fun c hc => hmem c (List.mem_cons_of_mem _ hc)
    have hchain' : NoDoubleHyphen r := List.Chain'.tail hchain
    have hlast' : r.getLast? ≠ some hyphen := by
      cases r with
      | nil => simp
      | cons b r => rwa [List.getLast?_cons_cons] at hlast
    cases ha : isAlnum a with
    | true =>
      rw [runsFrom_alnum ha, ih (cur ++ [a]) hmem' hchain' hlast' (fun h0 => by simp at h0)]
      simp
    | false =>
      have hEq : a = hyphen := by
        rcases hmem a (List.mem_cons_self _ _) with h1 | h1
        · rw [ha] at h1; cases h1
        · exact h1
      subst hEq
      have hcur : cur ≠ [] := fun h0 => hhead h0 (by simp)
      have hrne : r ≠ [] := by
        rintro rfl
        exact hlast (by simp)
      have hhead' : r.head? ≠ some hyphen := by
        unfold NoDoubleHyphen at hchain
        rw [List.chain'_cons'] at hchain
        intro hh
        exact hchain.1 hyphen (by rw [Option.mem_def]; exact hh) ⟨rfl, rfl⟩
      have hrec := ih [] hmem' hchain' hlast' (fun _ => hhead')
      rw [List.nil_append] at hrec
      have hRne : runsFrom [] r ≠ [] := by
        intro h0
        rw [h0] at hrec
        exact hrne (by simpa [List.intercalate] using hrec.symm)
      rw [runsFrom_hyphen, if_neg hcur, intercalate_cons_of_ne_nil _ _ _ hRne, hrec]
      simp

theorem isSlugChar_cases {c : Nat} (hc : isSlugChar c = true) : isAlnum c = true ∨ c = hyphen := by
  simp only [isAlnum, isSlugChar, hyphen, Bool.or_eq_true, Bool.and_eq_true,
    decide_eq_true_eq] at *
  omega

theorem slugify_eq_slugSpec (h : Host) (s : Option JSString) : slugify h s = slugSpec h s := by
  obtain ⟨hmem, hchain, hhead, hlast⟩ := slugify_shape_aux h s
  have hnf := intercalate_runsFrom (slugify h s) [] (fun c hc => isSlugChar_cases (hmem c hc))
    hchain hlast (fun _ => hhead)
  rw [List.nil_append] at hnf
  rw [← hnf, slugSpec, alnumRuns, slugify_eq_map]
  have hmap := runsFrom_map_asciiLower (trimEdgeHyphens true (collapseRuns false
    (stripMarks (normalizeNFKD h (normalize s))))) []
  rw [List.map_nil] at hmap
  rw [hmap, runsFrom_trim_true, (runsFrom_collapseRuns _).1]
  congr 1
  apply List.map_congr_left
  intro run hrun
  symm
  apply toLowerCase_of_slugChars
  intro c hc
  exact Or.inl (runsFrom_mem_alnum _ [] (by simp) run hrun c hc)

/-! ## `slugify` on a slug -/

theorem collapseRuns_of_shape (r : JSString) :
    (∀ c ∈ r, isAlnum c = true ∨ c = hyphen) → NoDoubleHyphen r →
      collapseRuns false r = r ∧ (r.head? ≠ some hyphen → collapseRuns true r = r) := by
  induction r with
  | nil => intro _ _; simp [collapseRuns]
  | cons a r ih =>
    intro hmem hchain
    have ih' := ih (fun c hc => hmem c (List.mem_cons_of_mem _ hc)) (List.Chain'.tail hchain)
    cases ha : isAlnum a with
    | true =>
      rw [collapseRuns_alnum ha, collapseRuns_alnum ha, ih'.1]
      exact ⟨rfl, fun _ => rfl⟩
    | false =>
      have hEq : a = hyphen := by
        rcases hmem a (List.mem_cons_self _ _) with h1 | h1
        · rw [ha] at h1; cases h1
        · exact h1
      subst hEq
      refine ⟨?_, fun hh => absurd rfl hh⟩
      have hhead' : r.head? ≠ some hyphen := by
        unfold NoDoubleHyphen at hchain
        rw [List.chain'_cons'] at hchain
        intro hh
        exact hchain.1 hyphen (by rw [Option.mem_def]; exact hh) ⟨rfl, rfl⟩
      rw [collapseRuns_open ha, ih'.2 hhead']

theorem trimEdgeHyphens_false_of_getLast (r : JSString) (hlast : r.getLast? ≠ some hyphen) :
    trimEdgeHyphens false r = r := by
  rcases List.eq_nil_or_concat r with rfl | ⟨u, c, rfl⟩
  · rfl
  · rw [List.concat_eq_append] at hlast ⊢
    rw [List.getLast?_concat] at hlast
    rw [trimEdgeHyphens_false_append, if_neg (fun hc => hlast (by rw [hc]))]

theorem trimEdgeHyphens_of_shape (r : JSString) (hhead : r.head? ≠ some hyphen)
    (hlast : r.getLast? ≠ some hyphen) : trimEdgeHyphens true r = r := by
  cases r with
  | nil => rfl
  | cons a r =>
    have ha : a ≠ hyphen := fun h0 => hhead (by rw [h0]; rfl)
    rw [trimEdgeHyphens_true_cons, if_neg ha]
    cases r with
    | nil => rfl
    | cons b r =>
      rw [List.getLast?_cons_cons] at hlast
      rw [trimEdgeHyphens_false_of_getLast _ hlast]

theorem isSlugChar_isAscii {c : Nat} (hc : isSlugChar c = true) : isAscii c = true := by
  simp only [isSlugChar, isAscii, hyphen, Bool.or_eq_true, Bool.and_eq_true,
    decide_eq_true_eq] at *
  omega

theorem asciiLower_of_isSlugChar {c : Nat} (hc : isSlugChar c = true) : asciiLower c = c := by
  simp only [isSlugChar, hyphen, Bool.or_eq_true, Bool.and_eq_true, decide_eq_true_eq] at hc
  simp only [asciiLower]
  split <;> omega

/-- On a string that already has the shape of a slug, `slugify` changes nothing. -/
theorem slugify_of_shape (h : Host) (r : JSString) (hmem : ∀ c ∈ r, isSlugChar c = true)
    (hchain : NoDoubleHyphen r) (hhead : r.head? ≠ some hyphen)
    (hlast : r.getLast? ≠ some hyphen) : slugify h (some r) = r := by
  have hall : r.all isAscii = true := by
    rw [List.all_eq_true]
    exact fun c hc => isSlugChar_isAscii (hmem c hc)
  have hstrip : stripMarks r = r := by
    rw [stripMarks, List.filter_eq_self]
    intro c hc
    have h1 := isSlugChar_isAscii (hmem c hc)
    simp only [isAscii, decide_eq_true_eq] at h1
    simp only [isCombiningMark, Bool.not_eq_true', Bool.and_eq_false_iff, decide_eq_false_iff_not]
    omega
  have hmem' : ∀ c ∈ r, isAlnum c = true ∨ c = hyphen := fun c hc => isSlugChar_cases (hmem c hc)
  rw [slugify_eq_map]
  simp only [normalize, Option.getD_some, normalizeNFKD, hall, if_true, hstrip]
  rw [(collapseRuns_of_shape r hmem' hchain).1, trimEdgeHyphens_of_shape r hhead hlast]
  calc r.map asciiLower = r.map id :=
        List.map_congr_left fun c hc => asciiLower_of_isSlugChar (hmem c hc)
    _ = r := List.map_id r

theorem slugify_slugify (h : Host) (s : Option JSString) :
    slugify h (some (slugify h s)) = slugify h s := by
  obtain ⟨hmem, hchain, hhead, hlast⟩ := slugify_shape_aux h s
  exact slugify_of_shape h _ hmem hchain hhead hlast

theorem getPresetRoute_of_exists (h : Host) (fs : FileSystem) (a b : JSString)
    (hpath : safePresetPath h (some a) = safePresetPath h (some b))
    (hex : fileExists fs (safePresetPath h (some b)) = true) :
    getPresetRoute h fs a = getPresetRoute h fs b := by
  simp only [getPresetRoute, hpath, hex, if_true]

/-! ## The claims on `slugify` -/

/-- C1: for every input, `slugify` returns only code units of `[a-z0-9-]`, the
result neither starts nor ends with `-`, and `--` does not occur in it. -/
theorem slugify_shape (h : Host) (s : Option JSString) :
    (∀ c ∈ slugify h s, isSlugChar c = true) ∧
    (slugify h s).head? ≠ some hyphen ∧
    (slugify h s).getLast? ≠ some hyphen ∧
    ¬ ([hyphen, hyphen] <:+: slugify h s) := by
  obtain ⟨hmem, hchain, hhead, hlast⟩ := slugify_shape_aux h s
  refine ⟨hmem, hhead, hlast, fun hinf => ?_⟩
  have h2 := List.Chain'.infix hchain hinf
  rw [List.chain'_pair] at h2
  exact h2 ⟨rfl, rfl⟩

/-- C2: `slugify` is idempotent, so `safePresetPath` gives one path for a name
and for its slug; `Basic Kit` and `basic-kit` name the same file, and when that
file exists the lookup by the slug answers what the lookup by the name answers. -/
theorem slugify_idempotent (h : Host) (s : Option JSString) :
    slugify h (some (slugify h s)) = slugify h s ∧
    safePresetPath h (some (slugify h s)) = safePresetPath h s ∧
    slugify h (some (utf16 "Basic Kit")) = utf16 "basic-kit" ∧
    safePresetPath h (some (utf16 "Basic Kit")) = safePresetPath h (some (utf16 "basic-kit")) ∧
    ∀ (fs : FileSystem) (name : JSString),
      fileExists fs (safePresetPath h (some name)) = true →
        getPresetRoute h fs (slugify h (some name)) = getPresetRoute h fs name := by
  have hpath : ∀ t, safePresetPath h (some (slugify h t)) = safePresetPath h t := by
    intro t
    rw [safePresetPath, safePresetPath, slugify_slugify]
  have hkit : slugify h (some (utf16 "Basic Kit")) = utf16 "basic-kit" := by rfl
  refine ⟨slugify_slugify h s, hpath s, hkit, ?_, fun fs name hex => ?_⟩
  · rw [← hkit, hpath]
  · exact getPresetRoute_of_exists h fs _ _ (hpath (some name)) hex

/-- C2, on the sample directory: the file of `Basic Kit` exists and the lookup
by `basic-kit` answers the same response. -/
theorem slugify_idempotent_witness :
    fileExists sampleFs (safePresetPath sampleHost (some (utf16 "Basic Kit"))) = true ∧
    getPresetRoute sampleHost sampleFs (slugify sampleHost (some (utf16 "Basic Kit"))) =
      getPresetRoute sampleHost sampleFs (utf16 "Basic Kit") :=
  ⟨by decide,
    (slugify_idempotent sampleHost none).2.2.2.2 sampleFs (utf16 "Basic Kit") (by decide)⟩

/-- C3: `slugify` returns the maximal `[A-Za-z0-9]` runs of the decomposed string
without its combining marks, lowercased and joined by one `-`; hence two inputs
with the same lowercased runs, whatever their letter case, marks or separators,
have the same slug. -/
theorem slugify_runs (h : Host) :
    (∀ s, slugify h s = slugSpec h s) ∧
    ∀ s₁ s₂ : Option JSString,
      (alnumRuns (stripMarks (normalizeNFKD h (normalize s₁)))).map (toLowerCase h) =
        (alnumRuns (stripMarks (normalizeNFKD h (normalize s₂)))).map (toLowerCase h) →
      slugify h s₁ = slugify h s₂ := by
  refine ⟨slugify_eq_slugSpec h, fun s₁ s₂ hruns => ?_⟩
  rw [slugify_eq_slugSpec, slugify_eq_slugSpec, slugSpec, slugSpec, hruns]

/-- C3, on two spellings of one name that differ in case, in a combining acute
accent and in separators. -/
theorem slugify_runs_witness :
    (alnumRuns (stripMarks (normalizeNFKD sampleHost (normalize (some (utf16 "Basic Kit")))))).map
        (toLowerCase sampleHost) =
      (alnumRuns (stripMarks (normalizeNFKD sampleHost
        (normalize (some (utf16 "--ba\u0301sic__KIT!")))))).map (toLowerCase sampleHost) ∧
    slugify sampleHost (some (utf16 "Basic Kit")) =
      slugify sampleHost (some (utf16 "--ba\u0301sic__KIT!")) :=
  ⟨by decide, (slugify_runs sampleHost).2 _ _ (by decide)⟩

/-! ## The list route -/

theorem filterE_ok {α : Type} (f : α → Except JSError Bool) (g : α → Bool) (l : List α)
    (hfg : ∀ x ∈ l, f x = .ok (g x)) : filterE f l = .ok (l.filter g) := by
  induction l with
  | nil => rfl
  | cons a l ih =>
    have ha := hfg a (List.mem_cons_self _ _)
    have hl := ih fun x hx => hfg x (List.mem_cons_of_mem _ hx)
    simp only [filterE, ha, hl, List.filter_cons]

theorem filterE_sublist {α : Type} (f : α → Except JSError Bool) (l : List α) :
    ∀ r, filterE f l = .ok r → r.Sublist l := by
  induction l with
  | nil =>
    intro r hr
    simp only [filterE, Except.ok.injEq] at hr
    subst hr
    exact List.Sublist.refl _
  | cons a l ih =>
    intro r hr
    rw [filterE] at hr
    cases hfa : f a with
    | error e => rw [hfa] at hr; cases hr
    | ok b =>
      rw [hfa] at hr
      cases hrec : filterE f l with
      | error e => rw [hrec] at hr; cases hr
      | ok r' =>
        rw [hrec] at hr
        simp only [Except.ok.injEq] at hr
        subst hr
        cases b with
        | true => exact (ih r' hrec).cons₂ a
        | false => exact (ih r' hrec).cons a

theorem fieldIncludes_of_text (h : Host) (key needle : JSString) (p : JSON)
    (hp : hasTextField key p = true) :
    (match getField p key with
      | .error e => Except.error e
      | .ok x => fieldIncludes h x needle) =
      .ok (includes (toLowerCase h (fieldText key p)) needle) := by
  cases p with
  | obj fields =>
    simp only [getField, fieldText]
    simp only [hasTextField] at hp
    cases hl : lookupField key fields with
    | none => rfl
    | some v =>
      rw [hl] at hp
      cases v with
      | str t =>
        cases t with
        | nil => rfl
        | cons c t => rfl
      | null => rfl
      | bool b =>
        cases b with
        | false => rfl
        | true => cases hp
      | num n =>
        have hn : n = 0 := by simpa [JSON.truthy] using hp
        subst hn
        rfl
      | arr items => cases hp
      | obj fs => cases hp
  | null => cases hp
  | bool b => rfl
  | num n => rfl
  | str t => rfl
  | arr items => rfl

theorem factoryIsTrue_of_ne_null (p : JSON) (hp : p ≠ .null) :
    factoryIsTrue p = .ok (isFactory p) := by
  cases p with
  | null => exact absurd rfl hp
  | obj fields =>
    simp only [factoryIsTrue, getField, isFactory]
    cases hl : lookupField (utf16 "factory") fields with
    | none => rfl
    | some v =>
      cases v with
      | bool b => cases b <;> rfl
      | null => rfl
      | num n => rfl
      | str t => rfl
      | arr items => rfl
      | obj fs => rfl
  | bool b => rfl
  | num n => rfl
  | str t => rfl
  | arr items => rfl

theorem hasTextField_ne_null {key : JSString} {p : JSON} (hp : hasTextField key p = true) :
    p ≠ .null := by
  rintro rfl
  cases hp

theorem filter_of_forall_true {α : Type} (g : α → Bool) (l : List α) (hg : ∀ x, g x = true) :
    l.filter g = l :=
  List.filter_eq_self.2 fun x _ => hg x

theorem filterByQ_of_text (h : Host) (query : Query) (l : List JSON)
    (hl : ∀ p ∈ l, hasTextField (utf16 "name") p = true) :
    filterByQ h query l = .ok (l.filter (keepsQ h query)) := by
  obtain ⟨q, t, f⟩ := query
  cases q with
  | none =>
    rw [filter_of_forall_true (keepsQ h ⟨none, t, f⟩) l fun p => rfl]
    rfl
  | some v =>
    cases hv : v.truthy with
    | false =>
      rw [filter_of_forall_true _ l fun p => by simp [keepsQ, hv]]
      simp [filterByQ, hv]
    | true =>
      simp only [filterByQ, hv, if_true]
      refine filterE_ok _ _ l fun p hp => ?_
      rw [nameMatches, fieldIncludes_of_text h _ _ p (hl p hp)]
      simp [keepsQ, hv]

theorem filterByType_of_text (h : Host) (query : Query) (l : List JSON)
    (hl : ∀ p ∈ l, hasTextField (utf16 "type") p = true) :
    filterByType h query l = .ok (l.filter (keepsType h query)) := by
  obtain ⟨q, t, f⟩ := query
  cases t with
  | none =>
    rw [filter_of_forall_true (keepsType h ⟨q, none, f⟩) l fun p => rfl]
    rfl
  | some v =>
    cases hv : v.truthy with
    | false =>
      rw [filter_of_forall_true _ l fun p => by simp [keepsType, hv]]
      simp [filterByType, hv]
    | true =>
      simp only [filterByType, hv, if_true]
      refine filterE_ok _ _ l fun p hp => ?_
      rw [typeMatches, fieldIncludes_of_text h _ _ p (hl p hp)]
      simp [keepsType, hv]

theorem filterByFactory_of_ne_null (query : Query) (l : List JSON)
    (hl : ∀ p ∈ l, p ≠ JSON.null) :
    filterByFactory query l = .ok (l.filter (keepsFactory query)) := by
  obtain ⟨q, t, f⟩ := query
  cases f with
  | none =>
    rw [filter_of_forall_true (keepsFactory ⟨q, t, none⟩) l fun p => rfl]
    rfl
  | some v =>
    by_cases hv : v.truthy = true ∧ v.toStr = utf16 "true"
    · simp only [filterByFactory, hv, and_self, if_true]
      refine filterE_ok _ _ l fun p hp => ?_
      rw [factoryIsTrue_of_ne_null p (hl p hp)]
      simp [keepsFactory, hv]
    · rw [filter_of_forall_true _ l fun p => by simp only [keepsFactory, if_neg hv]]
      simp only [filterByFactory, if_neg hv]

theorem readPresets_fst (h : Host) (fs : FileSystem) (files : List JSString) :
    (readPresets h fs files).1 =
      files.filterMap fun f => readJSON h fs (h.pathJoin h.DATA_DIR f) := by
  induction files with
  | nil => rfl
  | cons f rest ih =>
    rw [readPresets, List.filterMap_cons]
    cases hr : readJSON h fs (h.pathJoin h.DATA_DIR f) with
    | none => simpa using ih
    | some preset => simpa using ih

theorem parsedPresets_eq (h : Host) (fs : FileSystem) :
    parsedPresets h fs =
      (((fs.readdir h.DATA_DIR).getD []).filter fun f => decide (utf16 ".json" <:+ f)).filterMap
        fun f => readJSON h fs (h.pathJoin h.DATA_DIR f) := by
  rw [parsedPresets, readPresets_fst]
  rfl

theorem listRoute_of_ok (h : Host) (fs : FileSystem) (query : Query) (L : List JSON)
    (hL : applyFilters h query (parsedPresets h fs) = .ok L) :
    listRoute h fs query = ⟨200, .arr L⟩ := by
  rw [listRoute, hL]

theorem applyFilters_eq_bind (h : Host) (query : Query) (l : List JSON) :
    applyFilters h query l =
      ((filterByQ h query l).bind (filterByType h query)).bind (filterByFactory query) := by
  rw [applyFilters]
  cases filterByQ h query l with
  | error e => rfl
  | ok a =>
    cases hb : filterByType h query a with
    | error e => simp [Except.bind, hb]
    | ok b => simp [Except.bind, hb]

theorem filterByQ_sublist (h : Host) (query : Query) (l r : List JSON)
    (hr : filterByQ h query l = .ok r) : r.Sublist l := by
  unfold filterByQ at hr
  split at hr
  · cases hr; exact List.Sublist.refl _
  · split at hr
    · exact filterE_sublist _ _ _ hr
    · cases hr; exact List.Sublist.refl _

theorem filterByType_sublist (h : Host) (query : Query) (l r : List JSON)
    (hr : filterByType h query l = .ok r) : r.Sublist l := by
  unfold filterByType at hr
  split at hr
  · cases hr; exact List.Sublist.refl _
  · split at hr
    · exact filterE_sublist _ _ _ hr
    · cases hr; exact List.Sublist.refl _

theorem filterByFactory_sublist (query : Query) (l r : List JSON)
    (hr : filterByFactory query l = .ok r) : r.Sublist l := by
  unfold filterByFactory at hr
  split at hr
  · cases hr; exact List.Sublist.refl _
  · split at hr
    · exact filterE_sublist _ _ _ hr
    · cases hr; exact List.Sublist.refl _

theorem applyFilters_sublist (h : Host) (query : Query) (l r : List JSON)
    (hr : applyFilters h query l = .ok r) : r.Sublist l := by
  rw [applyFilters] at hr
  cases ha : filterByQ h query l with
  | error e => rw [ha] at hr; cases hr
  | ok a =>
    rw [ha] at hr
    simp only [] at hr
    cases hb : filterByType h query a with
    | error e => rw [hb] at hr; cases hr
    | ok b =>
      rw [hb] at hr
      exact ((filterByFactory_sublist query b r hr).trans
        (filterByType_sublist h query a b hb)).trans (filterByQ_sublist h query l a ha)

/-- On values whose `name` and `type` read as text, the three steps in the
order of the source keep the presets that pass the three options. -/
theorem applyFilters_of_text (h : Host) (query : Query) (l : List JSON)
    (hname : ∀ p ∈ l, hasTextField (utf16 "name") p = true)
    (htype : ∀ p ∈ l, hasTextField (utf16 "type") p = true) :
    applyFilters h query l =
      .ok (l.filter fun p => keepsQ h query p && keepsType h query p && keepsFactory query p) := by
  rw [applyFilters, filterByQ_of_text h query l hname]
  simp only []
  rw [filterByType_of_text h query _ fun p hp => htype p (List.mem_of_mem_filter hp)]
  simp only []
  rw [filterByFactory_of_ne_null query _ fun p hp =>
    hasTextField_ne_null (hname p (List.mem_of_mem_filter (List.mem_of_mem_filter hp)))]
  rw [List.filter_filter, List.filter_filter]
  congr 1
  apply List.filter_congr
  intro p _
  cases keepsQ h query p <;> cases keepsType h query p <;> cases keepsFactory query p <;> rfl

theorem toLowerCase_ne_nil (h : Host) (s : JSString) (hs : s ≠ []) : toLowerCase h s ≠ [] := by
  rw [toLowerCase]
  split
  · simpa using hs
  · exact h.lowerTable_ne_nil s hs

theorem includes_nil_left (q : JSString) (hq : q ≠ []) : includes [] q = false := by
  simp [includes, hq]

/-! ## The claims on the list route -/

/-- C4: without filters the list route answers the records of the directory
entries whose name ends in `.json` and whose content reads and parses, one per
file and in the order of enumeration; a file that fails to read or parse is
skipped. On the sample directory (two valid files, one corrupt) the answer has
the two valid records and the corrupt file is the one warned about. -/
theorem list_unfiltered (h : Host) (fs : FileSystem) :
    listRoute h fs ⟨none, none, none⟩ =
      ⟨200, .arr ((((fs.readdir h.DATA_DIR).getD []).filter
        fun f => decide (utf16 ".json" <:+ f)).filterMap
          fun f => readJSON h fs (h.pathJoin h.DATA_DIR f))⟩ ∧
    listRoute sampleHost sampleFs ⟨none, none, none⟩ = ⟨200, .arr [basicKit, ambientPad]⟩ ∧
    (readPresets sampleHost sampleFs (listPresetFiles sampleHost sampleFs)).2 =
      [utf16 "broken.json"] := by
  refine ⟨?_, by rfl, by decide⟩
  rw [← parsedPresets_eq]
  rfl

/-- C5, at the failing input: a directory whose one `.json` file holds the text
`null` is listed without filters, and the same directory with `factory=true`
is answered by the error handler with status 500. -/
theorem list_null_record_fails :
    parsedPresets sampleHost nullFs = [JSON.null] ∧
    listRoute sampleHost nullFs ⟨none, none, none⟩ = ⟨200, .arr [JSON.null]⟩ ∧
    listRoute sampleHost nullFs ⟨none, none, some (.str (utf16 "true"))⟩ =
      ⟨500, .obj [(utf16 "error", .str (utf16 "Internal Server Error"))]⟩ ∧
    listRoute sampleHost nullFs ⟨some (.str (utf16 "kit")), none, none⟩ =
      ⟨500, .obj [(utf16 "error", .str (utf16 "Internal Server Error"))]⟩ :=
  ⟨by rfl, by rfl, by rfl, by rfl⟩

/-- The text search where no callback throws: when the `name` of every parsed
preset reads as text (a record whose name is absent or a string is such a
preset), the list route with a non-empty `q` answers exactly the presets whose
name (the empty string when absent) contains `q`, both lowercased; a preset
without a name is not among them; on the sample directory `q = "kit"` answers
`Basic Kit` alone. -/
theorem list_q (h : Host) (fs : FileSystem) (q : JSString) (hq : q ≠ [])
    (hname : ∀ p ∈ parsedPresets h fs, hasTextField (utf16 "name") p = true) :
    listRoute h fs ⟨some (.str q), none, none⟩ =
      ⟨200, .arr ((parsedPresets h fs).filter fun p =>
        includes (toLowerCase h (fieldText (utf16 "name") p)) (toLowerCase h q))⟩ ∧
    (∀ p, fieldText (utf16 "name") p = [] →
      p ∉ (parsedPresets h fs).filter fun p =>
        includes (toLowerCase h (fieldText (utf16 "name") p)) (toLowerCase h q)) ∧
    listRoute sampleHost sampleFs ⟨some (.str (utf16 "kit")), none, none⟩ =
      ⟨200, .arr [basicKit]⟩ := by
  have htruthy : (QueryValue.str q).truthy = true := by
    cases q with
    | nil => exact absurd rfl hq
    | cons c q => rfl
  refine ⟨?_, ?_, by rfl⟩
  · apply listRoute_of_ok
    rw [applyFilters, filterByQ_of_text h _ _ hname]
    simp only [filterByType, filterByFactory]
    congr 1
    apply List.filter_congr
    intro p _
    simp only [keepsQ, htruthy, if_true, QueryValue.toStr]
  · intro p hp hmem
    have hinc := (List.mem_filter.1 hmem).2
    have hnil : toLowerCase h [] = [] := rfl
    rw [hp, hnil, includes_nil_left _ (toLowerCase_ne_nil h q hq)] at hinc
    cases hinc

/-- The text search on the sample directory with `q = "kit"`. -/
theorem list_q_witness :
    listRoute sampleHost sampleFs ⟨some (.str (utf16 "kit")), none, none⟩ =
      ⟨200, .arr ((parsedPresets sampleHost sampleFs).filter fun p =>
        includes (toLowerCase sampleHost (fieldText (utf16 "name") p))
          (toLowerCase sampleHost (utf16 "kit")))⟩ :=
  (list_q sampleHost sampleFs (utf16 "kit") (by decide) (by
    intro p hp
    have hall : (parsedPresets sampleHost sampleFs).all (hasTextField (utf16 "name")) = true := by
      rfl
    exact List.all_eq_true.1 hall p hp)).1

/-- The factory filter where no callback throws: when no parsed preset is
`null`, the list route with `factory=true` answers exactly the presets whose
`factory` field is the boolean `true`; a record without the field, with
`false`, with the string `"true"` or with the number 1 is not one of them. -/
theorem list_factory (h : Host) (fs : FileSystem)
    (hnull : ∀ p ∈ parsedPresets h fs, p ≠ JSON.null) :
    listRoute h fs ⟨none, none, some (.str (utf16 "true"))⟩ =
      ⟨200, .arr ((parsedPresets h fs).filter isFactory)⟩ ∧
    (∀ fields, isFactory (.obj fields) = true ↔
      lookupField (utf16 "factory") fields = some (.bool true)) ∧
    isFactory (.obj []) = false ∧
    isFactory (.obj [(utf16 "factory", .bool false)]) = false ∧
    isFactory (.obj [(utf16 "factory", .str (utf16 "true"))]) = false ∧
    isFactory (.obj [(utf16 "factory", .num 1)]) = false := by
  refine ⟨?_, ?_, by rfl, by rfl, by rfl, by rfl⟩
  · apply listRoute_of_ok
    rw [applyFilters]
    simp only [filterByQ, filterByType]
    rw [filterByFactory_of_ne_null _ _ hnull]
    congr 1
  · intro fields
    simp only [isFactory]
    cases hl : lookupField (utf16 "factory") fields with
    | none => simp
    | some v =>
      cases v with
      | bool b => cases b <;> simp
      | null => simp
      | num n => simp
      | str t => simp
      | arr items => simp
      | obj fs => simp

/-- The factory filter on the sample directory: `Ambient Pad` carries the
string `"true"` and is left out. -/
theorem list_factory_witness :
    (∀ p ∈ parsedPresets sampleHost sampleFs, p ≠ JSON.null) ∧
    listRoute sampleHost sampleFs ⟨none, none, some (.str (utf16 "true"))⟩ =
      ⟨200, .arr ((parsedPresets sampleHost sampleFs).filter isFactory)⟩ ∧
    (parsedPresets sampleHost sampleFs).filter isFactory = [basicKit] :=
  have hne : ∀ p ∈ parsedPresets sampleHost sampleFs, p ≠ JSON.null := by
    intro p hp
    have hall : (parsedPresets sampleHost sampleFs).all (hasTextField (utf16 "name")) = true := by
      rfl
    exact hasTextField_ne_null (List.all_eq_true.1 hall p hp)
  ⟨hne, (list_factory sampleHost sampleFs hne).1, by rfl⟩

/-- C6, at the failing inputs: in a directory with `Basic Kit` and a record whose
name is the number 5, and in a directory with `Basic Kit` and a file holding
`null`, the presets whose name contains `kit` are `Basic Kit` alone and the
unfiltered route answers 200 with both values, yet `q=kit` is answered by the
error handler with status 500. -/
theorem list_q_fails_on_unreadable_name :
    parsedPresets looseHost numberNameFs = [basicKit, numberNameRecord] ∧
    ((parsedPresets looseHost numberNameFs).filter fun p =>
      includes (toLowerCase looseHost (fieldText (utf16 "name") p))
        (toLowerCase looseHost (utf16 "kit"))) = [basicKit] ∧
    listRoute looseHost numberNameFs ⟨none, none, none⟩ =
      ⟨200, .arr [basicKit, numberNameRecord]⟩ ∧
    listRoute looseHost numberNameFs ⟨some (.str (utf16 "kit")), none, none⟩ =
      ⟨500, .obj [(utf16 "error", .str (utf16 "Internal Server Error"))]⟩ ∧
    parsedPresets sampleHost nullRecordFs = [basicKit, JSON.null] ∧
    ((parsedPresets sampleHost nullRecordFs).filter fun p =>
      includes (toLowerCase sampleHost (fieldText (utf16 "name") p))
        (toLowerCase sampleHost (utf16 "kit"))) = [basicKit] ∧
    listRoute sampleHost nullRecordFs ⟨some (.str (utf16 "kit")), none, none⟩ =
      ⟨500, .obj [(utf16 "error", .str (utf16 "Internal Server Error"))]⟩ :=
  ⟨by rfl, by rfl, by rfl, by rfl, by rfl, by rfl, by rfl⟩

/-- C7, at the failing input: in a directory with `Basic Kit` (whose `factory`
is `true`) and a file holding `null`, the presets whose `factory` is the
boolean `true` are `Basic Kit` alone and the unfiltered route answers 200 with
both values, yet `factory=true` is answered by the error handler with status
500. -/
theorem list_factory_fails_on_null_record :
    parsedPresets sampleHost nullRecordFs = [basicKit, JSON.null] ∧
    (parsedPresets sampleHost nullRecordFs).filter isFactory = [basicKit] ∧
    listRoute sampleHost nullRecordFs ⟨none, none, none⟩ =
      ⟨200, .arr [basicKit, JSON.null]⟩ ∧
    listRoute sampleHost nullRecordFs ⟨none, none, some (.str (utf16 "true"))⟩ =
      ⟨500, .obj [(utf16 "error", .str (utf16 "Internal Server Error"))]⟩ :=
  ⟨by rfl, by rfl, by rfl, by rfl⟩

theorem mem_filter_and3 {α : Type} (a b c : α → Bool) (l : List α) (x : α) :
    x ∈ l.filter (fun p => a p && b p && c p) ↔
      x ∈ l.filter a ∧ x ∈ l.filter b ∧ x ∈ l.filter c := by
  simp only [List.mem_filter, Bool.and_eq_true]
  tauto

theorem steps_of_filters (l : List JSON) (a b c : JSON → Bool)
    (sa sb sc : List JSON → Except JSError (List JSON))
    (ha : ∀ m : List JSON, (∀ p ∈ m, p ∈ l) → sa m = .ok (m.filter a))
    (hb : ∀ m : List JSON, (∀ p ∈ m, p ∈ l) → sb m = .ok (m.filter b))
    (hc : ∀ m : List JSON, (∀ p ∈ m, p ∈ l) → sc m = .ok (m.filter c)) :
    ((sa l).bind sb).bind sc = .ok (l.filter fun p => a p && b p && c p) := by
  rw [ha l fun p hp => hp]
  simp only [Except.bind]
  rw [hb _ fun p hp => List.mem_of_mem_filter hp]
  simp only []
  rw [hc _ fun p hp => List.mem_of_mem_filter (List.mem_of_mem_filter hp)]
  rw [List.filter_filter, List.filter_filter]
  congr 1
  apply List.filter_congr
  intro p _
  cases a p <;> cases b p <;> cases c p <;> rfl

/-- C8: when `name` and `type` of every parsed preset read as text (records
whose name and type are absent or strings are such presets), each option alone
keeps the presets that pass it, the three options together keep exactly the
presets kept by each of them alone (the `type` option keeping the presets whose
type, empty when absent, contains it, both lowercased), and the three steps
give that same list in each of the six orders. -/
theorem list_filters_and (h : Host) (fs : FileSystem) (query : Query)
    (hname : ∀ p ∈ parsedPresets h fs, hasTextField (utf16 "name") p = true)
    (htype : ∀ p ∈ parsedPresets h fs, hasTextField (utf16 "type") p = true) :
    listRoute h fs ⟨query.q, none, none⟩ =
      ⟨200, .arr ((parsedPresets h fs).filter (keepsQ h query))⟩ ∧
    listRoute h fs ⟨none, query.type, none⟩ =
      ⟨200, .arr ((parsedPresets h fs).filter (keepsType h query))⟩ ∧
    listRoute h fs ⟨none, none, query.factory⟩ =
      ⟨200, .arr ((parsedPresets h fs).filter (keepsFactory query))⟩ ∧
    listRoute h fs query =
      ⟨200, .arr ((parsedPresets h fs).filter fun p =>
        keepsQ h query p && keepsType h query p && keepsFactory query p)⟩ ∧
    (∀ p, p ∈ (parsedPresets h fs).filter (fun p =>
        keepsQ h query p && keepsType h query p && keepsFactory query p) ↔
      p ∈ (parsedPresets h fs).filter (keepsQ h query) ∧
      p ∈ (parsedPresets h fs).filter (keepsType h query) ∧
      p ∈ (parsedPresets h fs).filter (keepsFactory query)) ∧
    ((filterByQ h query (parsedPresets h fs)).bind (filterByFactory query)).bind
        (filterByType h query) = applyFilters h query (parsedPresets h fs) ∧
    ((filterByType h query (parsedPresets h fs)).bind (filterByQ h query)).bind
        (filterByFactory query) = applyFilters h query (parsedPresets h fs) ∧
    ((filterByType h query (parsedPresets h fs)).bind (filterByFactory query)).bind
        (filterByQ h query) = applyFilters h query (parsedPresets h fs) ∧
    ((filterByFactory query (parsedPresets h fs)).bind (filterByQ h query)).bind
        (filterByType h query) = applyFilters h query (parsedPresets h fs) ∧
    ((filterByFactory query (parsedPresets h fs)).bind (filterByType h query)).bind
        (filterByQ h query) = applyFilters h query (parsedPresets h fs) := by
  have hall := applyFilters_of_text h query _ hname htype
  have hq : ∀ m : List JSON, (∀ p ∈ m, p ∈ parsedPresets h fs) →
      filterByQ h query m = .ok (m.filter (keepsQ h query)) :=
    fun m hm => filterByQ_of_text h query m fun p hp => hname p (hm p hp)
  have ht : ∀ m : List JSON, (∀ p ∈ m, p ∈ parsedPresets h fs) →
      filterByType h query m = .ok (m.filter (keepsType h query)) :=
    fun m hm => filterByType_of_text h query m fun p hp => htype p (hm p hp)
  have hf : ∀ m : List JSON, (∀ p ∈ m, p ∈ parsedPresets h fs) →
      filterByFactory query m = .ok (m.filter (keepsFactory query)) :=
    fun m hm => filterByFactory_of_ne_null query m fun p hp =>
      hasTextField_ne_null (hname p (hm p hp))
  have hperm : ∀ a b c : JSON → Bool,
      (parsedPresets h fs).filter (fun p => a p && b p && c p) =
        (parsedPresets h fs).filter (fun p => a p && c p && b p) := by
    intro a b c
    apply List.filter_congr
    intro p _
    cases a p <;> cases b p <;> cases c p <;> rfl
  have hperm' : ∀ a b c : JSON → Bool,
      (parsedPresets h fs).filter (fun p => a p && b p && c p) =
        (parsedPresets h fs).filter (fun p => b p && a p && c p) := by
    intro a b c
    apply List.filter_congr
    intro p _
    cases a p <;> cases b p <;> cases c p <;> rfl
  refine ⟨?_, ?_, ?_, listRoute_of_ok h fs query _ hall, mem_filter_and3 _ _ _ _,
    ?_, ?_, ?_, ?_, ?_⟩
  · apply listRoute_of_ok
    rw [applyFilters_of_text h _ _ hname htype]
    refine congrArg Except.ok (List.filter_congr fun p _ => ?_)
    simp [keepsQ, keepsType, keepsFactory]
  · apply listRoute_of_ok
    rw [applyFilters_of_text h _ _ hname htype]
    refine congrArg Except.ok (List.filter_congr fun p _ => ?_)
    simp [keepsQ, keepsType, keepsFactory]
  · apply listRoute_of_ok
    rw [applyFilters_of_text h _ _ hname htype]
    refine congrArg Except.ok (List.filter_congr fun p _ => ?_)
    simp [keepsQ, keepsType, keepsFactory]
  · rw [hall, steps_of_filters _ _ _ _ _ _ _ hq hf ht, hperm]
  · rw [hall, steps_of_filters _ _ _ _ _ _ _ ht hq hf, hperm']
  · rw [hall, steps_of_filters _ _ _ _ _ _ _ ht hf hq, hperm, hperm']
  · rw [hall, steps_of_filters _ _ _ _ _ _ _ hf hq ht, hperm', hperm]
  · rw [hall, steps_of_filters _ _ _ _ _ _ _ hf ht hq, hperm', hperm, hperm']

/-- C8, on the sample directory with `q=kit`, `type=drum` and `factory=true`. -/
theorem list_filters_and_witness :
    listRoute sampleHost sampleFs
        ⟨some (.str (utf16 "kit")), some (.str (utf16 "drum")), some (.str (utf16 "true"))⟩ =
      ⟨200, .arr [basicKit]⟩ ∧
    listRoute sampleHost sampleFs
        ⟨some (.str (utf16 "kit")), some (.str (utf16 "drum")), some (.str (utf16 "true"))⟩ =
      ⟨200, .arr ((parsedPresets sampleHost sampleFs).filter fun p =>
        keepsQ sampleHost
            ⟨some (.str (utf16 "kit")), some (.str (utf16 "drum")), some (.str (utf16 "true"))⟩ p &&
          keepsType sampleHost
            ⟨some (.str (utf16 "kit")), some (.str (utf16 "drum")), some (.str (utf16 "true"))⟩ p &&
          keepsFactory
            ⟨some (.str (utf16 "kit")), some (.str (utf16 "drum")), some (.str (utf16 "true"))⟩ p)⟩ :=
  ⟨by rfl,
    (list_filters_and sampleHost sampleFs
      ⟨some (.str (utf16 "kit")), some (.str (utf16 "drum")), some (.str (utf16 "true"))⟩
      (fun p hp => List.all_eq_true.1
        (show (parsedPresets sampleHost sampleFs).all (hasTextField (utf16 "name")) = true from rfl)
        p hp)
      (fun p hp => List.all_eq_true.1
        (show (parsedPresets sampleHost sampleFs).all (hasTextField (utf16 "type")) = true from rfl)
        p hp)).2.2.2.1⟩

/-- C9: the unfiltered answer is the parsed records in the order of
enumeration, every list the route answers under any options is a sublist of it
(nothing added, repeated or moved), and when `name` and `type` of the records
read as text the route does answer such a list. -/
theorem list_sublist (h : Host) (fs : FileSystem) (query : Query) :
    listRoute h fs ⟨none, none, none⟩ = ⟨200, .arr (parsedPresets h fs)⟩ ∧
    parsedPresets h fs =
      ((((fs.readdir h.DATA_DIR).getD []).filter fun f => decide (utf16 ".json" <:+ f)).filterMap
        fun f => readJSON h fs (h.pathJoin h.DATA_DIR f)) ∧
    (∀ L, listRoute h fs query = ⟨200, .arr L⟩ → L.Sublist (parsedPresets h fs)) ∧
    ((∀ p ∈ parsedPresets h fs, hasTextField (utf16 "name") p = true) →
      (∀ p ∈ parsedPresets h fs, hasTextField (utf16 "type") p = true) →
      ∃ L, listRoute h fs query = ⟨200, .arr L⟩ ∧ L.Sublist (parsedPresets h fs)) := by
  refine ⟨rfl, parsedPresets_eq h fs, ?_, ?_⟩
  · intro L hL
    rw [listRoute] at hL
    cases hr : applyFilters h query (parsedPresets h fs) with
    | error e =>
      rw [hr] at hL
      simp [internalServerError] at hL
    | ok r =>
      rw [hr] at hL
      simp only [Response.mk.injEq, JSON.arr.injEq, true_and] at hL
      subst hL
      exact applyFilters_sublist h query _ _ hr
  · intro hname htype
    have hall := applyFilters_of_text h query _ hname htype
    exact ⟨_, listRoute_of_ok h fs query _ hall, List.filter_sublist _⟩

/-- C9, on the sample directory with `type=synth`. -/
theorem list_sublist_witness :
    ∃ L, listRoute sampleHost sampleFs ⟨none, some (.str (utf16 "synth")), none⟩ = ⟨200, .arr L⟩ ∧
      L.Sublist (parsedPresets sampleHost sampleFs) :=
  (list_sublist sampleHost sampleFs ⟨none, some (.str (utf16 "synth")), none⟩).2.2.2
    (fun p hp => List.all_eq_true.1
      (show (parsedPresets sampleHost sampleFs).all (hasTextField (utf16 "name")) = true from rfl)
      p hp)
    (fun p hp => List.all_eq_true.1
      (show (parsedPresets sampleHost sampleFs).all (hasTextField (utf16 "type")) = true from rfl)
      p hp)

/-! ## The lookup route -/

/-- C10: the lookup route answers 404 with the message `Preset '<name>' not
found`, built from the name as requested, exactly when no file is accessible at
`safePresetPath(name)`; when the file is there and parses, the answer is 200
with the parsed record. -/
theorem getPresetRoute_notFound (h : Host) (fs : FileSystem) (name : JSString) :
    (getPresetRoute h fs name =
        ⟨404, .obj [(utf16 "error", .str (utf16 "Preset '" ++ name ++ utf16 "' not found"))]⟩ ↔
      fileExists fs (safePresetPath h (some name)) = false) ∧
    ((getPresetRoute h fs name).status = 404 ↔
      fileExists fs (safePresetPath h (some name)) = false) ∧
    (∀ preset, fileExists fs (safePresetPath h (some name)) = true →
      readJSON h fs (safePresetPath h (some name)) = some preset →
      getPresetRoute h fs name = ⟨200, preset⟩) ∧
    getPresetRoute sampleHost sampleFs (utf16 "Nonexistent") =
      ⟨404, .obj [(utf16 "error", .str (utf16 "Preset 'Nonexistent' not found"))]⟩ ∧
    getPresetRoute sampleHost sampleFs (utf16 "No Such Kit") =
      ⟨404, .obj [(utf16 "error", .str (utf16 "Preset 'No Such Kit' not found"))]⟩ := by
  have hstatus : (getPresetRoute h fs name).status = 404 ↔
      fileExists fs (safePresetPath h (some name)) = false := by
    cases hex : fileExists fs (safePresetPath h (some name)) with
    | false => simp [getPresetRoute, hex]
    | true =>
      simp only [getPresetRoute, hex, if_true]
      cases readJSON h fs (safePresetPath h (some name)) with
      | none => simp [internalServerError]
      | some preset => simp
  refine ⟨⟨fun hresp => hstatus.1 (by rw [hresp]), fun hex => ?_⟩, hstatus, ?_, by rfl, by rfl⟩
  · simp [getPresetRoute, hex, notFoundMessage]
  · intro preset hex hread
    simp [getPresetRoute, hex, hread]

/-- C10, on the sample directory: `Basic Kit` is stored and is answered by its record. -/
theorem getPresetRoute_notFound_witness :
    getPresetRoute sampleHost sampleFs (utf16 "Basic Kit") = ⟨200, basicKit⟩ :=
  (getPresetRoute_notFound sampleHost sampleFs (utf16 "Basic Kit")).2.2.1 basicKit
    (by decide) (by rfl)

/-! ## The factory option -/

theorem filterByFactory_of_not_true (q t factory : Option QueryValue) (l : List JSON)
    (hf : ∀ v, factory = some v → v.toStr ≠ utf16 "true") :
    filterByFactory ⟨q, t, factory⟩ l = .ok l := by
  cases factory with
  | none => rfl
  | some v =>
    have hv : ¬(v.truthy = true ∧ v.toStr = utf16 "true") := fun hc => hf v rfl hc.2
    simp only [filterByFactory, if_neg hv]

/-- C11: when the `factory` option is absent or its string form is not exactly
`"true"`, the list route answers what the same query without the option
answers, for every directory content and every `q` and `type`. -/
theorem list_factory_only_true (h : Host) (fs : FileSystem) (q t factory : Option QueryValue)
    (hf : ∀ v, factory = some v → v.toStr ≠ utf16 "true") :
    listRoute h fs ⟨q, t, factory⟩ = listRoute h fs ⟨q, t, none⟩ := by
  have hstep : ∀ l, filterByFactory ⟨q, t, factory⟩ l = filterByFactory ⟨q, t, none⟩ l :=
    fun l => filterByFactory_of_not_true q t factory l hf
  have hq : ∀ l, filterByQ h ⟨q, t, factory⟩ l = filterByQ h ⟨q, t, none⟩ l := fun _ => rfl
  have ht : ∀ l, filterByType h ⟨q, t, factory⟩ l = filterByType h ⟨q, t, none⟩ l := fun _ => rfl
  simp only [listRoute, applyFilters, hstep, hq, ht]

/-- C11, on the sample directory: `factory=false`, `factory=TRUE`, `factory=1`
and an empty `factory` all answer both presets, the factory preset included. -/
theorem list_factory_only_true_witness :
    listRoute sampleHost sampleFs ⟨none, none, some (.str (utf16 "false"))⟩ =
      ⟨200, .arr [basicKit, ambientPad]⟩ ∧
    listRoute sampleHost sampleFs ⟨none, none, some (.str (utf16 "TRUE"))⟩ =
      ⟨200, .arr [basicKit, ambientPad]⟩ ∧
    listRoute sampleHost sampleFs ⟨none, none, some (.str (utf16 "1"))⟩ =
      ⟨200, .arr [basicKit, ambientPad]⟩ ∧
    listRoute sampleHost sampleFs ⟨none, none, some (.str (utf16 ""))⟩ =
      ⟨200, .arr [basicKit, ambientPad]⟩ :=
  have hall : listRoute sampleHost sampleFs ⟨none, none, none⟩ =
      ⟨200, .arr [basicKit, ambientPad]⟩ := by rfl
  ⟨(list_factory_only_true sampleHost sampleFs none none _
      (fun v hv => by cases hv; decide)).trans hall,
    (list_factory_only_true sampleHost sampleFs none none _
      (fun v hv => by cases hv; decide)).trans hall,
    (list_factory_only_true sampleHost sampleFs none none _
      (fun v hv => by cases hv; decide)).trans hall,
    (list_factory_only_true sampleHost sampleFs none none _
      (fun v hv => by cases hv; decide)).trans hall⟩

/-! ## Where `safePresetPath` points -/

theorem splitSlash_ne_nil (s : JSString) : splitSlash s ≠ [] := by
  cases s with
  | nil => simp [splitSlash]
  | cons c cs =>
    rw [splitSlash]
    split
    · simp
    · split <;> simp

theorem splitSlash_of_not_mem (f : JSString) (hf : slash ∉ f) : splitSlash f = [f] := by
  induction f with
  | nil => rfl
  | cons c cs ih =>
    have hc : c ≠ slash := fun h0 => hf (by rw [h0]; exact List.mem_cons_self _ _)
    have hcs : slash ∉ cs := fun h0 => hf (List.mem_cons_of_mem _ h0)
    rw [splitSlash, if_neg hc, ih hcs]

theorem splitSlash_append (a b : JSString) :
    splitSlash (a ++ slash :: b) = splitSlash a ++ splitSlash b := by
  induction a with
  | nil => simp [splitSlash]
  | cons c a ih =>
    rw [List.cons_append, splitSlash, splitSlash, ih]
    by_cases hc : c = slash
    · simp [hc]
    · rw [if_neg hc, if_neg hc]
      cases hsa : splitSlash a with
      | nil => exact absurd hsa (splitSlash_ne_nil a)
      | cons seg rest => rfl

theorem normalizeSegment_keep (b : Bool) (res : List JSString) (seg : JSString)
    (h0 : seg ≠ []) (h1 : seg ≠ [dot]) (h2 : seg ≠ [dot, dot]) :
    normalizeSegment b res seg = res ++ [seg] := by
  rw [normalizeSegment, if_neg (by simp [h0, h1]), if_neg h2]

theorem intercalate_concat (f : JSString) (xs : List JSString) :
    [slash].intercalate (xs ++ [f]) =
      if xs = [] then f else [slash].intercalate xs ++ slash :: f := by
  induction xs with
  | nil => simp [List.intercalate]
  | cons x xs ih =>
    rw [List.cons_append, intercalate_cons_of_ne_nil _ _ _ (by simp), ih,
      if_neg (List.cons_ne_nil x xs)]
    by_cases hxs : xs = []
    · subst hxs
      simp [List.intercalate]
    · rw [if_neg hxs, intercalate_cons_of_ne_nil _ _ _ hxs]
      simp

theorem getLast?_ne_of_not_mem (pre file : JSString) (hslash : slash ∉ file) (h0 : file ≠ []) :
    (pre ++ file).getLast? ≠ some slash := by
  rcases List.eq_nil_or_concat file with rfl | ⟨u, c, rfl⟩
  · exact absurd rfl h0
  · rw [List.concat_eq_append, ← List.append_assoc, List.getLast?_concat]
    intro hc
    apply hslash
    rw [List.concat_eq_append, ← Option.some.inj hc]
    simp

theorem posixNormalize_child (path file : JSString) (segs : List JSString)
    (hpath : path ≠ []) (hsegs : posixSegments path = segs ++ [file]) (hfile : file ≠ [])
    (hlast : path.getLast? ≠ some slash) :
    posixNormalize path =
      (if path.head? = some slash then [slash] else []) ++ [slash].intercalate (segs ++ [file]) := by
  have hbody : [slash].intercalate (segs ++ [file]) ≠ [] := by
    rw [intercalate_concat]
    split
    · exact hfile
    · simp
  rw [posixNormalize, if_neg hpath]
  simp only [hsegs, if_neg hbody, decide_eq_true_eq, if_neg hlast, List.append_nil]

/-- Joining a directory and one plain file name as `path.posix.join` does: the
result is the kept segments of the directory followed by the file name. -/
theorem posixJoin_child (dir file : JSString) (hslash : slash ∉ file) (h0 : file ≠ [])
    (h1 : file ≠ [dot]) (h2 : file ≠ [dot, dot]) :
    posixJoin dir file =
      (if dir.head? = some slash then [slash] else []) ++
        [slash].intercalate (posixSegments dir ++ [file]) := by
  have hfileLast : file.getLast? ≠ some slash := getLast?_ne_of_not_mem [] file hslash h0
  cases dir with
  | nil =>
    have hhead : file.head? ≠ some slash := by
      intro hh
      exact hslash (List.mem_of_mem_head? (Option.mem_def.2 hh))
    have hsegs : posixSegments file = [] ++ [file] := by
      rw [posixSegments, splitSlash_of_not_mem file hslash]
      simp only [List.foldl_cons, List.foldl_nil]
      rw [normalizeSegment_keep _ _ _ h0 h1 h2]
    rw [posixJoin, if_pos rfl, if_neg h0, posixNormalize_child file file [] h0 hsegs h0 hfileLast,
      if_neg hhead]
    rfl
  | cons d ds =>
    have hpath : (d :: ds) ++ slash :: file ≠ [] := by simp
    have hhead : ((d :: ds) ++ slash :: file).head? = (d :: ds).head? := rfl
    have hlast : ((d :: ds) ++ slash :: file).getLast? ≠ some slash := by
      have h3 := getLast?_ne_of_not_mem ((d :: ds) ++ [slash]) file hslash h0
      rwa [List.append_assoc, List.singleton_append] at h3
    have hsegs : posixSegments ((d :: ds) ++ slash :: file) =
        posixSegments (d :: ds) ++ [file] := by
      rw [posixSegments, posixSegments, hhead, splitSlash_append,
        splitSlash_of_not_mem file hslash, List.foldl_append]
      simp only [List.foldl_cons, List.foldl_nil]
      rw [normalizeSegment_keep _ _ _ h0 h1 h2]
    rw [posixJoin, if_neg (by simp), if_neg h0,
      posixNormalize_child _ file _ hpath hsegs h0 hlast, hhead]

theorem isSlugChar_plain {c : Nat} (hc : isSlugChar c = true) :
    c ≠ slash ∧ c ≠ 92 ∧ c ≠ 0 ∧ c ≠ dot := by
  simp only [isSlugChar, hyphen, Bool.or_eq_true, Bool.and_eq_true, decide_eq_true_eq] at hc
  simp only [slash, dot]
  omega

theorem utf16_json : utf16 ".json" = [dot, 106, 115, 111, 110] := by decide

/-- C13: for every input, the file name `slugify(input) + ".json"` that
`safePresetPath` hands to `path.join` holds no `/`, no `\`, no NUL and exactly
one `.`, the one of the extension; it is never empty, `.` or `..`; and with
`path.posix.join` the path returned is the kept segments of `DATA_DIR` followed
by that file name, a direct child of `DATA_DIR`. -/
theorem safePresetPath_confined (h : Host) (s : Option JSString) :
    safePresetPath h s = h.pathJoin h.DATA_DIR (slugify h s ++ utf16 ".json") ∧
    (∀ c ∈ slugify h s ++ utf16 ".json", c ≠ slash ∧ c ≠ 92 ∧ c ≠ 0) ∧
    (∀ c ∈ slugify h s, c ≠ dot) ∧
    (slugify h s ++ utf16 ".json").count dot = 1 ∧
    slugify h s ++ utf16 ".json" ≠ [] ∧
    slugify h s ++ utf16 ".json" ≠ [dot] ∧
    slugify h s ++ utf16 ".json" ≠ [dot, dot] ∧
    (h.pathJoin = posixJoin →
      safePresetPath h s =
        (if h.DATA_DIR.head? = some slash then [slash] else []) ++
          [slash].intercalate (posixSegments h.DATA_DIR ++ [slugify h s ++ utf16 ".json"])) := by
  have hslug : ∀ c ∈ slugify h s, c ≠ slash ∧ c ≠ 92 ∧ c ≠ 0 ∧ c ≠ dot :=
    fun c hc => isSlugChar_plain ((slugify_shape_aux h s).1 c hc)
  have hfile : ∀ c ∈ slugify h s ++ utf16 ".json", c ≠ slash ∧ c ≠ 92 ∧ c ≠ 0 := by
    intro c hc
    rcases List.mem_append.1 hc with h1 | h1
    · exact ⟨(hslug c h1).1, (hslug c h1).2.1, (hslug c h1).2.2.1⟩
    · rw [utf16_json] at h1
      simp only [List.mem_cons, List.mem_singleton, List.not_mem_nil, or_false] at h1
      simp only [slash]
      rcases h1 with rfl | rfl | rfl | rfl | rfl <;> decide
  have hlen : (slugify h s ++ utf16 ".json").length = (slugify h s).length + 5 := by
    rw [List.length_append, utf16_json]
    rfl
  have hne0 : slugify h s ++ utf16 ".json" ≠ [] := by
    intro hEq
    have := congrArg List.length hEq
    rw [hlen] at this
    simp at this
  have hne1 : slugify h s ++ utf16 ".json" ≠ [dot] := by
    intro hEq
    have := congrArg List.length hEq
    rw [hlen] at this
    simp at this
  have hne2 : slugify h s ++ utf16 ".json" ≠ [dot, dot] := by
    intro hEq
    have := congrArg List.length hEq
    rw [hlen] at this
    simp at this
  refine ⟨rfl, hfile, fun c hc => (hslug c hc).2.2.2, ?_, hne0, hne1, hne2, fun hjoin => ?_⟩
  · rw [List.count_append, List.count_eq_zero.2 fun hmem => (hslug dot hmem).2.2.2 rfl,
      utf16_json]
    rfl
  · rw [safePresetPath, hjoin]
    exact posixJoin_child _ _ (fun hmem => (hfile slash hmem).1 rfl) hne0 hne1 hne2

/-- C13, on a name written to climb out of the directory. -/
theorem safePresetPath_confined_witness :
    posixHost.pathJoin = posixJoin ∧
    safePresetPath posixHost (some (utf16 "../../etc/passwd\x00")) =
      utf16 "/srv/data/presets/etc-passwd.json" :=
  ⟨rfl, ((safePresetPath_confined posixHost (some (utf16 "../../etc/passwd\x00"))).2.2.2.2.2.2.2
    rfl).trans (by decide)⟩

end PresetCatalog

namespace PadGrid

/-! ## The pad of each sample -/

theorem padIndex_lt (k : Nat) : padIndex k < 16 := by
  simp only [padIndex, cols, rows]
  omega

theorem padIndex_padIndex {i : Nat} (hi : i < 16) : padIndex (padIndex i) = i := by
  simp only [padIndex, cols, rows]
  omega

theorem padIndex_eq_iff {i k : Nat} (hi : i < 16) (hk : k < 16) :
    padIndex i = k ↔ padIndex k = i := by
  constructor
  · rintro rfl
    exact padIndex_padIndex hi
  · rintro rfl
    exact padIndex_padIndex hk

theorem assignFrom_length {α : Type} (l : List α) :
    ∀ (i : Nat) (pads : List (Option (PadInfo α))), (assignFrom i l pads).length = pads.length := by
  induction l with
  | nil => intro i pads; rfl
  | cons s rest ih =>
    intro i pads
    rw [assignFrom]
    split
    · rw [ih, List.length_set]
    · rfl

/-- The entry `k` after the loop run from iteration `i`: the sample whose index
is `padIndex k` when the loop reaches it, else what was there. -/
theorem assignFrom_getElem? {α : Type} (l : List α) :
    ∀ (i : Nat) (pads : List (Option (PadInfo α))), pads.length = 16 → ∀ k, k < 16 →
      (assignFrom i l pads)[k]? =
        if i ≤ padIndex k then
          match l[padIndex k - i]? with
          | some s => some (some ⟨s, padIndex k⟩)
          | none => pads[k]?
        else pads[k]? := by
  induction l with
  | nil =>
    intro i pads _ k _
    simp [assignFrom]
  | cons s rest ih =>
    intro i pads hlen k hk
    rw [assignFrom]
    have hpk := padIndex_lt k
    by_cases hi : i < cols * rows
    · have hi16 : i < 16 := hi
      rw [if_pos hi, ih (i + 1) _ (by rw [List.length_set, hlen]) k hk, List.getElem?_set, hlen,
        if_pos (padIndex_lt i)]
      by_cases h1 : padIndex k = i
      · have h2 : padIndex i = k := (padIndex_eq_iff hi16 hk).2 h1
        rw [if_neg (by omega), if_pos h2, if_pos (by omega), h1, Nat.sub_self]
        simp only [List.getElem?_cons_zero]
      · have h2 : padIndex i ≠ k := fun h3 => h1 ((padIndex_eq_iff hi16 hk).1 h3)
        rw [if_neg h2]
        by_cases h3 : i ≤ padIndex k
        · have h4 : padIndex k - i = (padIndex k - (i + 1)) + 1 := by omega
          rw [if_pos (by omega), if_pos h3, h4, List.getElem?_cons_succ]
        · rw [if_neg (by omega), if_neg h3]
    · have h3 : ¬ i ≤ padIndex k := by
        simp only [cols, rows] at hi
        omega
      rw [if_neg hi, if_neg h3]

/-- The array `padBuffers` entry by entry: pad `k` holds the sample of index
`padIndex k` when there is one, else `null`. -/
theorem padBuffers_getElem? {α : Type} (good : List α) (k : Nat) (hk : k < 16) :
    (padBuffers good)[k]? =
      some ((good[padIndex k]?).map fun s => ⟨s, padIndex k⟩) := by
  have hk' : k < cols * rows := hk
  rw [padBuffers, assignFrom_getElem? good 0 _ (by rw [List.length_replicate]; rfl) k hk,
    if_pos (Nat.zero_le _), Nat.sub_zero, List.getElem?_replicate, if_pos hk']
  cases good[padIndex k]? <;> rfl

theorem padBuffers_length {α : Type} (good : List α) : (padBuffers good).length = 16 := by
  rw [padBuffers, assignFrom_length, List.length_replicate]
  rfl

theorem createPads_eq {α : Type} (good : List α) :
    createPads good =
      (List.range 16).map fun k =>
        (⟨((padBuffers good)[k]?).join.isNone, ((padBuffers good)[k]?).join⟩ : Pad α) := by
  rfl

theorem padBuffers_none_iff {α : Type} (good : List α) (k : Nat) (hk : k < 16) :
    good[padIndex k]? = none ↔ ∀ i, i < min good.length 16 → padIndex i ≠ k := by
  constructor
  · intro hnone i hi hik
    have hi16 : i < 16 := lt_of_lt_of_le hi (min_le_right _ _)
    have hilen : i < good.length := lt_of_lt_of_le hi (min_le_left _ _)
    rw [(padIndex_eq_iff hi16 hk).1 hik, List.getElem?_eq_none_iff] at hnone
    omega
  · intro hall
    rw [List.getElem?_eq_none_iff]
    by_contra hlt
    have hlen : padIndex k < good.length := by omega
    exact hall (padIndex k) (lt_min hlen (padIndex_lt k)) (padIndex_padIndex hk)

/-- C12: `loadAndShow` fills a grid of 16 pads row by row from the bottom.
Sample `i` of the decoded samples, for `i` below their number and below 16, is
on pad `(3 - i / 4) * 4 + i % 4`, an index below 16; no two samples share a
pad; sample 0 is on pad 12; an occupied pad holds a sample of index below 16
and below the number of samples, so the samples from the 17th on are on no
pad; a pad that no sample hits stays `null`, and the pad element created for
it is the disabled one. -/
theorem loadAndShow_pads {α : Type} (good : List α) :
    (padBuffers good).length = 16 ∧
    (∀ i, i < min good.length 16 →
      padIndex i = (3 - i / 4) * 4 + i % 4 ∧ padIndex i < 16 ∧
      ∃ s, good[i]? = some s ∧ (padBuffers good)[padIndex i]? = some (some ⟨s, i⟩)) ∧
    (∀ i j, i < 16 → j < 16 → padIndex i = padIndex j → i = j) ∧
    padIndex 0 = 12 ∧
    (∀ k info, (padBuffers good)[k]? = some (some info) →
      info.sampleIndex < min good.length 16 ∧ padIndex info.sampleIndex = k ∧
      good[info.sampleIndex]? = some info.sample) ∧
    (∀ k, k < 16 → (∀ i, i < min good.length 16 → padIndex i ≠ k) →
      (padBuffers good)[k]? = some none) ∧
    (createPads good).length = 16 ∧
    (∀ k, k < 16 → ∃ pad, (createPads good)[k]? = some pad ∧
      pad.info = ((padBuffers good)[k]?).join ∧
      (pad.disabled = true ↔ ∀ i, i < min good.length 16 → padIndex i ≠ k)) := by
  refine ⟨padBuffers_length good, ?_, ?_, rfl, ?_, ?_, ?_, ?_⟩
  · intro i hi
    have hi16 : i < 16 := lt_of_lt_of_le hi (min_le_right _ _)
    have hilen : i < good.length := lt_of_lt_of_le hi (min_le_left _ _)
    refine ⟨rfl, padIndex_lt i, good[i], List.getElem?_eq_getElem hilen, ?_⟩
    rw [padBuffers_getElem? good _ (padIndex_lt i), padIndex_padIndex hi16,
      List.getElem?_eq_getElem hilen]
    rfl
  · intro i j hi hj hij
    rw [← padIndex_padIndex hi, hij, padIndex_padIndex hj]
  · intro k info hinfo
    have hk : k < 16 := by
      by_contra hge
      rw [List.getElem?_eq_none (by rw [padBuffers_length]; omega)] at hinfo
      cases hinfo
    rw [padBuffers_getElem? good k hk] at hinfo
    cases hg : good[padIndex k]? with
    | none =>
      rw [hg] at hinfo
      cases hinfo
    | some s =>
      rw [hg] at hinfo
      simp only [Option.map_some', Option.some.injEq] at hinfo
      subst hinfo
      have hlen : padIndex k < good.length := by
        by_contra hge
        rw [List.getElem?_eq_none (by omega)] at hg
        cases hg
      exact ⟨lt_min hlen (padIndex_lt k), padIndex_padIndex hk, hg⟩
  · intro k hk hall
    rw [padBuffers_getElem? good k hk, (padBuffers_none_iff good k hk).2 hall]
    rfl
  · rw [createPads_eq, List.length_map, List.length_range]
  · intro k hk
    refine ⟨⟨((padBuffers good)[k]?).join.isNone, ((padBuffers good)[k]?).join⟩, ?_, rfl, ?_⟩
    · rw [createPads_eq, List.getElem?_map, List.getElem?_range hk]
      rfl
    · rw [← padBuffers_none_iff good k hk, padBuffers_getElem? good k hk]
      cases good[padIndex k]? <;> simp

/-- C12, on five decoded samples: the fifth opens the second row from the
bottom, on pad 8. -/
theorem loadAndShow_pads_witness :
    4 < min [10, 20, 30, 40, 50].length 16 ∧
    ∃ s, [10, 20, 30, 40, 50][4]? = some s ∧
      (padBuffers [10, 20, 30, 40, 50])[8]? = some (some ⟨s, 4⟩) :=
  ⟨by decide, ((loadAndShow_pads [10, 20, 30, 40, 50]).2.1 4 (by decide)).2.2⟩

end PadGrid
